import Mathlib

/-!
Verification development for the xpath 1.0 engine (package `xpatheng`).

The Go source is shallowly embedded: pure functions become Lean functions,
stateful iterators become functions producing the list of nodes they yield,
Go `float64` values become an inductive of NaN, signed infinities and exact
rationals, machine `int` arithmetic becomes arithmetic on `ℤ` (the places
where Go integer conversion or overflow is implementation-specific are noted
at the definitions that touch them), and Go panics become `Option`/`Except`
failures.
-/

set_option maxHeartbeats 1000000

namespace XPathProof

/-- Model of a Go `float64` as the engine uses it: NaN, the two infinities,
and finite values carried as exact rationals.  The engine's claims under
study depend on the special values and on integer rounding, not on the
finite-precision rounding of IEEE arithmetic, so finite values are exact. -/
inductive XFloat where
  | nan : XFloat
  | inf : Bool → XFloat
  | fin : ℚ → XFloat
deriving DecidableEq

/-- True exactly on the two infinities (math.IsInf(v, 0)). -/
def XFloat.isInf : XFloat → Bool
  | .inf _ => true
  | _ => false

/-- True exactly on NaN (math.IsNaN). -/
def XFloat.isNaN : XFloat → Bool
  | .nan => true
  | _ => false

namespace Substr

/-- math.MaxInt16, the saturation value substring uses for a +Inf length. -/
def maxInt16 : ℤ := 32767

/-- math.MinInt16, the saturation value substring uses for a -Inf length. -/
def minInt16 : ℤ := -32768

/-- roundToInt from functions.go: `if val != 0.5 return int(math.Floor(val+0.5)); return 0`.
Defined on the finite payload; substring.Eval only reaches it with finite
arguments apart from an infinite start, which is handled separately at the
caller (see `substringEval`). -/
def roundToInt (q : ℚ) : ℤ :=
  if q = 1 / 2 then 0 else ⌊q + 1 / 2⌋

/-- Go slice `runes[a:b]` on a code-point list, for 0 ≤ a ≤ b ≤ len. -/
def slice (s : List Char) (a b : ℤ) : List Char :=
  (s.drop a.toNat).take (b - a).toNat

/-- Clamping tail of substring.Eval (everything from `if start < 0` on),
split out of `substringEval` so the branches can be characterised once. -/
def substringCore (s : List Char) (start endPos : ℤ) : List Char :=
  if start > (s.length : ℤ) then []
  else
    let start2 := if start < 0 then 0 else start
    if endPos > (s.length : ℤ) then slice s start2 (s.length : ℤ)
    else if endPos < start2 then []
    else slice s start2 endPos

/-- Embedding of substring.Eval from functions.go with machine ints modelled
as unbounded integers: the no-overflow behaviour.  `s` is the code-point
list of the first (string) argument, `d1` the start argument, `d2` the
length argument when present.  This definition is NOT faithful when a
rounded start or length leaves the int64 range: there the source's
`int(float64)` conversion is implementation-dependent and the following int
arithmetic wraps — `substringEvalM` below models that per architecture, and
the two definitions are proved to coincide when the rounded values stay
within ±2^62 (`substringEvalM_eq_inrange`).  The infinite-length branch of
substring.Eval is decided by math.IsInf before any conversion, so the C9
theorem below is stated over this definition. -/
def substringEval (s : List Char) (d1 : XFloat) (d2 : Option XFloat) : List Char :=
  if s.length = 0 then []
  else
    match d1 with
    | .nan => []
    | .inf _ => []
    | .fin q =>
      let start := roundToInt q - 1
      let substrLength : ℤ :=
        match d2 with
        | none => (s.length : ℤ)
        | some .nan => 0
        | some (.inf true) => maxInt16
        | some (.inf false) => minInt16
        | some (.fin l) => roundToInt l
      if substrLength < 0 then []
      else substringCore s start (if d2.isNone then (s.length : ℤ) else start + substrLength)

/-- The two GOARCH targets the sources name (amd64, arm64).  The Go
specification leaves the out-of-range float64-to-int conversion
implementation-dependent, and these two targets behave differently for
positive overflow. -/
inductive Arch where
  | amd64 : Arch
  | arm64 : Arch
deriving DecidableEq

/-- math.MaxInt64, the largest machine int. -/
def maxInt64 : ℤ := 2 ^ 63 - 1

/-- math.MinInt64, the smallest machine int. -/
def minInt64 : ℤ := -(2 ^ 63)

/-- Go `int(val)` of an integral float64 given by its exact value `z`: the
value itself when it fits in int64, otherwise implementation-dependent —
amd64 (CVTTSD2SI) produces minInt64 for every out-of-range value, arm64
(FCVTZS) saturates to the nearer bound. -/
def int64Cvt (arch : Arch) (z : ℤ) : ℤ :=
  if minInt64 ≤ z ∧ z ≤ maxInt64 then z
  else
    match arch with
    | .amd64 => minInt64
    | .arm64 => if z < 0 then minInt64 else maxInt64

/-- Two's-complement wrap-around of 64-bit signed integer arithmetic. -/
def wrap64 (z : ℤ) : ℤ := (z + 2 ^ 63) % 2 ^ 64 - 2 ^ 63

/-- roundToInt from functions.go with its final `int(float64)` conversion
modelled per architecture, on a possibly non-finite argument:
`math.Floor(val+0.5)` of an infinity is that infinity, whose conversion is
out of range on either target (amd64 gives minInt64 for both, arm64
saturates); NaN: amd64 gives minInt64, arm64 gives 0 (substring never
reaches roundToInt with NaN, both arguments are checked before). -/
def roundToIntM (arch : Arch) : XFloat → ℤ
  | .nan =>
    match arch with
    | .amd64 => minInt64
    | .arm64 => 0
  | .inf true =>
    match arch with
    | .amd64 => minInt64
    | .arm64 => maxInt64
  | .inf false => minInt64
  | .fin q => if q = 1 / 2 then 0 else int64Cvt arch ⌊q + 1 / 2⌋

/-- Embedding of substring.Eval from functions.go with machine int64
semantics: the `int(float64)` conversions inside roundToInt are
implementation-dependent out of range (`roundToIntM`) and the int
arithmetic on `start` and `end` wraps (`wrap64`).  Everything else is as in
`substringEval`; the infinite-length saturation constants are untouched by
any conversion. -/
def substringEvalM (arch : Arch) (s : List Char) (d1 : XFloat) (d2 : Option XFloat) :
    List Char :=
  if s.length = 0 then []
  else
    match d1 with
    | .nan => []
    | d1 =>
      let start := wrap64 (roundToIntM arch d1 - 1)
      let substrLength : ℤ :=
        match d2 with
        | none => (s.length : ℤ)
        | some .nan => 0
        | some (.inf true) => maxInt16
        | some (.inf false) => minInt16
        | some (.fin l) => roundToIntM arch (.fin l)
      if substrLength < 0 then []
      else substringCore s start
        (if d2.isNone then (s.length : ℤ) else wrap64 (start + substrLength))

/-- The substring semantics exactly as the specification words it: positions
are 1-based code points, `start` and `length` are rounded, a NaN start gives
the empty string, an infinite length saturates to `maxInt16`/`minInt16`, and
the kept characters are those whose position lies in the intersection of
`[round(start), round(start)+length)` with the string's positions — with no
length argument the range instead extends to the end of the string.  A NaN
length rounds to NaN, which no position compares against, keeping nothing. -/
def substringSpec (s : List Char) (d1 : XFloat) (d2 : Option XFloat) : List Char :=
  match d1 with
  | .fin q =>
    let r := roundToInt q
    let keep : ℤ → Bool := fun p =>
      match d2 with
      | none => decide (r ≤ p)
      | some .nan => false
      | some (.inf true) => decide (r ≤ p ∧ p < r + maxInt16)
      | some (.inf false) => decide (r ≤ p ∧ p < r + minInt16)
      | some (.fin l) => decide (r ≤ p ∧ p < r + roundToInt l)
    ((s.enum).filter (fun pr => keep ((pr.1 : ℤ) + 1))).map Prod.snd
  | _ => []

theorem filter_interval (s : List Char) (o a b : ℕ) :
    ((List.enumFrom o s).filter (fun pr => decide (a ≤ pr.1 ∧ pr.1 < b))).map Prod.snd
      = ((s.take (b - o)).drop (a - o)) := by
  induction s generalizing o with
  | nil => simp
  | cons x t ih =>
    rw [List.enumFrom_cons, List.filter_cons]
    by_cases hb : o < b
    · by_cases ha : a ≤ o
      · have hc : (decide (a ≤ (o, x).1 ∧ (o, x).1 < b)) = true := by simp [ha, hb]
        rw [hc, if_pos rfl]
        simp only [List.map_cons]
        rw [ih (o + 1)]
        have h1 : a - o = 0 := by omega
        have h2 : b - o = (b - (o + 1)) + 1 := by omega
        have h3 : a - (o + 1) = 0 := by omega
        rw [h1, h2, h3, List.take_succ_cons]
        simp
      · have hc : (decide (a ≤ (o, x).1 ∧ (o, x).1 < b)) = false := by simp [ha]
        rw [hc, if_neg (by simp)]
        rw [ih (o + 1)]
        have h2 : b - o = (b - (o + 1)) + 1 := by omega
        have h3 : a - o = (a - (o + 1)) + 1 := by omega
        rw [h2, h3, List.take_succ_cons, List.drop_succ_cons]
    · have hc : (decide (a ≤ (o, x).1 ∧ (o, x).1 < b)) = false := by simp; omega
      rw [hc, if_neg (by simp)]
      rw [ih (o + 1)]
      have h2 : b - o = 0 := by omega
      have h3 : b - (o + 1) = 0 := by omega
      rw [h2, h3]
      simp

theorem spec_bounded (s : List Char) (r L : ℤ) :
    ((s.enum).filter (fun pr => decide (r ≤ (pr.1 : ℤ) + 1 ∧ (pr.1 : ℤ) + 1 < r + L))).map Prod.snd
      = ((s.take (r + L - 1).toNat).drop (r - 1).toNat) := by
  have heq : ((s.enum).filter (fun pr => decide (r ≤ (pr.1 : ℤ) + 1 ∧ (pr.1 : ℤ) + 1 < r + L)))
      = ((s.enum).filter (fun pr => decide ((r - 1).toNat ≤ pr.1 ∧ pr.1 < (r + L - 1).toNat))) := by
    apply List.filter_congr
    intro pr _
    simp only [decide_eq_decide]
    omega
  rw [heq]
  have he : s.enum = List.enumFrom 0 s := rfl
  rw [he]
  have := filter_interval s 0 ((r - 1).toNat) ((r + L - 1).toNat)
  simpa using this

theorem spec_lower (s : List Char) (r : ℤ) :
    ((s.enum).filter (fun pr => decide (r ≤ (pr.1 : ℤ) + 1))).map Prod.snd
      = s.drop (r - 1).toNat := by
  have heq : ((s.enum).filter (fun pr => decide (r ≤ (pr.1 : ℤ) + 1)))
      = ((s.enum).filter (fun pr => decide ((r - 1).toNat ≤ pr.1 ∧ pr.1 < s.length))) := by
    apply List.filter_congr
    intro pr hpr
    have := List.fst_lt_of_mem_enum hpr
    simp only [decide_eq_decide]
    omega
  rw [heq]
  have he : s.enum = List.enumFrom 0 s := rfl
  rw [he]
  have := filter_interval s 0 ((r - 1).toNat) s.length
  simp only [Nat.sub_zero] at this
  rw [this, List.take_length]

theorem substringCore_eq (s : List Char) (a b : ℤ) :
    substringCore s a b = (s.take b.toNat).drop a.toNat := by
  unfold substringCore
  by_cases h1 : a > (s.length : ℤ)
  · rw [if_pos h1]
    have : s.length ≤ a.toNat := by omega
    rw [List.drop_eq_nil_of_le (le_trans (by simp) this)]
  · rw [if_neg h1]
    simp only
    by_cases h2 : b > (s.length : ℤ)
    · rw [if_pos h2]
      have htake : s.take b.toNat = s := List.take_of_length_le (by omega)
      rw [htake]
      unfold slice
      by_cases h3 : a < 0
      · rw [if_pos h3]
        simp only [Int.toNat_zero, List.drop_zero]
        have h4 : a.toNat = 0 := by omega
        rw [h4, List.drop_zero]
        exact List.take_of_length_le (by omega)
      · rw [if_neg h3]
        exact List.take_of_length_le (by simp; omega)
    · rw [if_neg h2]
      by_cases h3 : a < 0
      · simp only [if_pos h3]
        by_cases h4 : b < 0
        · rw [if_pos h4]
          have : b.toNat = 0 := by omega
          rw [this]
          simp
        · rw [if_neg h4]
          have ha0 : a.toNat = 0 := by omega
          simp only [slice, ha0, Int.toNat_zero, List.drop_zero, Int.sub_zero]
      · simp only [if_neg h3]
        by_cases h4 : b < a
        · rw [if_pos h4]
          symm
          apply List.drop_eq_nil_of_le
          calc (s.take b.toNat).length ≤ b.toNat := by simp
          _ ≤ a.toNat := by omega
        · rw [if_neg h4]
          unfold slice
          rw [List.drop_take]
          congr 1
          omega


theorem drop_take_nil (s : List Char) (A B : ℕ) (h : A ≤ B) :
    (s.take A).drop B = [] :=
  List.drop_eq_nil_of_le (le_trans (le_trans (List.length_take A s).le (min_le_left _ _)) h)

/-- The no-overflow model agrees with the claim's positional description:
substring is 1-based over code points, rounds start and length, returns the
empty string for a NaN start, saturates an infinite length to
maxInt16/minInt16, and clamps a negative start so that the kept characters
are exactly the intersection of the rounded position range with the
string's positions. -/
theorem substringEval_eq_spec (s : List Char) (d1 : XFloat) (d2 : Option XFloat)
    (h : d1.isInf = false) :
    substringEval s d1 d2 = substringSpec s d1 d2 := by
  cases d1 with
  | nan =>
    cases d2 with
    | none => simp [substringEval, substringSpec]
    | some d => cases d <;> simp [substringEval, substringSpec]
  | inf b => simp [XFloat.isInf] at h
  | fin q =>
    by_cases hs : s.length = 0
    · have h0 : s = [] := List.length_eq_zero.mp hs
      subst h0
      cases d2 with
      | none => simp [substringEval, substringSpec]
      | some d => cases d <;> simp [substringEval, substringSpec]
    · unfold substringEval substringSpec
      rw [if_neg hs]
      cases d2 with
      | none =>
        dsimp only
        simp only [Option.isNone_none, if_pos]
        rw [if_neg (by omega)]
        rw [substringCore_eq, spec_lower]
        simp
      | some d =>
        cases d with
        | nan =>
          dsimp only
          rw [if_neg (by norm_num)]
          simp only [Option.isNone_some, Bool.false_eq_true, if_false]
          rw [substringCore_eq]
          have : (List.filter (fun pr => false) s.enum) = [] := by
            simp
          simp only [this, List.map_nil]
          apply drop_take_nil
          omega
        | inf b =>
          cases b with
          | true =>
            dsimp only
            rw [if_neg (by norm_num [maxInt16])]
            simp only [Option.isNone_some, Bool.false_eq_true, if_false]
            rw [substringCore_eq, spec_bounded]
            congr 2
            omega
          | false =>
            dsimp only
            rw [if_pos (by norm_num [minInt16])]
            rw [spec_bounded]
            symm
            apply drop_take_nil
            simp only [minInt16]
            omega
        | fin l =>
          dsimp only
          by_cases hL : roundToInt l < 0
          · rw [if_pos hL]
            rw [spec_bounded]
            symm
            apply drop_take_nil
            omega
          · rw [if_neg hL]
            simp only [Option.isNone_some, Bool.false_eq_true, if_false]
            rw [substringCore_eq, spec_bounded]
            congr 2
            omega

/-- C9: a +Infinity length argument saturates to exactly 32767
(math.MaxInt16) — evaluation coincides with passing literal 32767 and the
result holds at most 32767 code points — while with no length argument the
result is a suffix extending to the end of the string. -/
theorem substring_infinite_length :
    (∀ (s : List Char) (d1 : XFloat),
        substringEval s d1 (some (XFloat.inf true))
          = substringEval s d1 (some (XFloat.fin 32767)))
    ∧ (∀ (s : List Char) (d1 : XFloat),
        (substringEval s d1 (some (XFloat.inf true))).length ≤ 32767)
    ∧ (∀ (s : List Char) (d1 : XFloat), ∃ k, substringEval s d1 none = s.drop k) := by
  refine ⟨?_, ?_, ?_⟩
  · intro s d1
    have hr : roundToInt (32767 : ℚ) = maxInt16 := by
      unfold roundToInt maxInt16
      rw [if_neg (by norm_num)]
      norm_num
    cases d1 <;> simp [substringEval, hr]
  · intro s d1
    cases d1 with
    | nan => simp [substringEval]
    | inf b => simp [substringEval]
    | fin q =>
      unfold substringEval
      by_cases hs : s.length = 0
      · rw [if_pos hs]; simp
      · rw [if_neg hs]
        dsimp only
        rw [if_neg (by norm_num [maxInt16])]
        simp only [Option.isNone_some, Bool.false_eq_true, if_false]
        rw [substringCore_eq]
        have h1 := List.length_take ((roundToInt q - 1) + maxInt16).toNat s
        have h2 := List.length_drop ((roundToInt q - 1)).toNat
          (s.take ((roundToInt q - 1) + maxInt16).toNat)
        rw [h2, h1]
        simp only [maxInt16]
        omega
  · intro s d1
    cases d1 with
    | nan => exact ⟨s.length, by simp [substringEval]⟩
    | inf b => exact ⟨s.length, by simp [substringEval]⟩
    | fin q =>
      by_cases hs : s.length = 0
      · refine ⟨0, ?_⟩
        have h0 : s = [] := List.length_eq_zero.mp hs
        subst h0
        simp [substringEval]
      · refine ⟨(roundToInt q - 1).toNat, ?_⟩
        unfold substringEval
        rw [if_neg hs]
        dsimp only
        rw [if_neg (by omega)]
        simp only [Option.isNone_none, if_pos]
        rw [substringCore_eq]
        simp



theorem wrap64_eq_self (z : ℤ) (hz1 : minInt64 ≤ z) (hz2 : z ≤ maxInt64) :
    wrap64 z = z := by
  unfold wrap64
  simp only [minInt64] at hz1
  simp only [maxInt64] at hz2
  simp only [show ((2:ℤ) ^ 63) = 9223372036854775808 from by norm_num,
    show ((2:ℤ) ^ 64) = 18446744073709551616 from by norm_num] at *
  rw [Int.emod_eq_of_lt (by omega) (by omega)]
  omega

theorem roundToIntM_eq (arch : Arch) (x : ℚ)
    (hb1 : -(2 ^ 62) ≤ roundToInt x) (hb2 : roundToInt x ≤ 2 ^ 62) :
    roundToIntM arch (.fin x) = roundToInt x := by
  have hpow : ((2:ℤ) ^ 63) = 2 * 2 ^ 62 := by ring
  unfold roundToInt at hb1 hb2
  unfold roundToIntM roundToInt int64Cvt minInt64 maxInt64
  dsimp only
  by_cases hq : x = 1 / 2
  · rw [if_pos hq, if_pos hq]
  · rw [if_neg hq] at hb1 hb2
    rw [if_neg hq, if_neg hq, if_pos (by constructor <;> omega)]

/-- On arguments whose rounded values stay within ±2^62 no conversion is
out of range and no int64 arithmetic wraps, so the machine model coincides
with the unbounded model. -/
theorem substringEvalM_eq_inrange (arch : Arch) (s : List Char) (d1 : XFloat)
    (d2 : Option XFloat) (h : d1.isInf = false)
    (h1 : ∀ q, d1 = XFloat.fin q → -(2 ^ 62) ≤ roundToInt q ∧ roundToInt q ≤ 2 ^ 62)
    (h2 : ∀ l, d2 = some (XFloat.fin l) →
      -(2 ^ 62) ≤ roundToInt l ∧ roundToInt l ≤ 2 ^ 62) :
    substringEvalM arch s d1 d2 = substringEval s d1 d2 := by
  have hpow : ((2:ℤ) ^ 63) = 2 * 2 ^ 62 := by ring
  have hpos : (0:ℤ) < 2 ^ 62 := by positivity
  by_cases hs : s.length = 0
  · unfold substringEvalM substringEval
    rw [if_pos hs, if_pos hs]
  · cases d1 with
    | nan => simp [substringEvalM, substringEval]
    | inf b => simp [XFloat.isInf] at h
    | fin q =>
      obtain ⟨hq1, hq2⟩ := h1 q rfl
      have hrM := roundToIntM_eq arch q hq1 hq2
      have hstart : wrap64 (roundToIntM arch (.fin q) - 1) = roundToInt q - 1 := by
        rw [hrM]
        apply wrap64_eq_self
        · unfold minInt64
          omega
        · unfold maxInt64
          omega
      unfold substringEvalM substringEval
      rw [if_neg hs, if_neg hs]
      cases d2 with
      | none =>
        dsimp only
        simp only [Option.isNone_none, if_pos]
        rw [if_neg (by omega), if_neg (by omega), hstart]
      | some d =>
        cases d with
        | nan =>
          dsimp only
          simp only [Option.isNone_some, Bool.false_eq_true, if_false]
          rw [if_neg (by norm_num), if_neg (by norm_num), hstart,
            wrap64_eq_self _ (by unfold minInt64 ; omega) (by unfold maxInt64 ; omega)]
        | inf b =>
          cases b with
          | true =>
            dsimp only
            simp only [Option.isNone_some, Bool.false_eq_true, if_false]
            rw [if_neg (by norm_num [maxInt16]), if_neg (by norm_num [maxInt16]), hstart,
              wrap64_eq_self _ (by unfold minInt64 maxInt16 ; omega)
                (by unfold maxInt64 maxInt16 ; omega)]
          | false =>
            dsimp only
            rw [if_pos (by norm_num [minInt16]), if_pos (by norm_num [minInt16])]
        | fin l =>
          obtain ⟨hl1, hl2⟩ := h2 l rfl
          have hlM := roundToIntM_eq arch l hl1 hl2
          dsimp only
          simp only [Option.isNone_some, Bool.false_eq_true, if_false]
          rw [hlM, hstart]
          by_cases hneg : roundToInt l < 0
          · rw [if_pos hneg, if_pos hneg]
          · rw [if_neg hneg, if_neg hneg,
              wrap64_eq_self _ (by unfold minInt64 ; omega) (by unfold maxInt64 ; omega)]


/-- C8 counterexample: substring("abc", -1e30).  The rounded start -10^30
is below minInt64, so the source's `int(math.Floor(d1+0.5))` conversion is
out of range: on both amd64 and arm64 it produces minInt64, then
`start := roundToInt(d1) - 1` wraps to maxInt64 > 3 and substring.Eval
returns "" — while the claim's negative-start-clamped-to-position-1
description (the positional specification) keeps the whole string. -/
theorem substring_overflow_counterexample :
    substringEvalM .amd64 ['a', 'b', 'c'] (XFloat.fin (-(10 ^ 30))) none = []
    ∧ substringEvalM .arm64 ['a', 'b', 'c'] (XFloat.fin (-(10 ^ 30))) none = []
    ∧ substringSpec ['a', 'b', 'c'] (XFloat.fin (-(10 ^ 30))) none = ['a', 'b', 'c'] := by
  have hfl : ⌊(-(10 ^ 30 : ℚ)) + 1 / 2⌋ = -(10 ^ 30) := by
    have he : (-(10 ^ 30 : ℚ)) + 1 / 2 = (1 / 2 : ℚ) + ((-(10 ^ 30) : ℤ) : ℚ) := by
      push_cast
      ring
    rw [he, Int.floor_add_int]
    norm_num [Int.floor_eq_zero_iff]
  have hr : roundToInt (-(10 ^ 30 : ℚ)) = -(10 ^ 30) := by
    unfold roundToInt
    rw [if_neg (by norm_num), hfl]
  have hout : ¬(minInt64 ≤ (-(10 ^ 30) : ℤ) ∧ (-(10 ^ 30) : ℤ) ≤ maxInt64) := by
    rw [not_and_or]
    left
    norm_num [minInt64]
  have hrM : ∀ arch, roundToIntM arch (.fin (-(10 ^ 30 : ℚ))) = minInt64 := by
    intro arch
    unfold roundToIntM int64Cvt
    dsimp only
    rw [if_neg (by norm_num), hfl, if_neg hout]
    cases arch with
    | amd64 => rfl
    | arm64 =>
      dsimp only
      rw [if_pos (by norm_num)]
  have hstart : wrap64 (minInt64 - 1) = maxInt64 := by
    unfold wrap64 minInt64 maxInt64
    norm_num
  have hm : ∀ arch, substringEvalM arch ['a', 'b', 'c'] (XFloat.fin (-(10 ^ 30))) none = [] := by
    intro arch
    unfold substringEvalM
    rw [if_neg (by norm_num)]
    dsimp only
    rw [hrM arch, hstart]
    rw [if_neg (by norm_num)]
    simp only [Option.isNone_none, if_pos]
    unfold substringCore
    rw [if_pos (by norm_num [maxInt64])]
  refine ⟨hm .amd64, hm .arm64, ?_⟩
  unfold substringSpec
  dsimp only
  rw [spec_lower, hr]
  rw [show ((-(10 ^ 30 : ℤ)) - 1).toNat = 0 from by
    rw [Int.toNat_eq_zero]
    norm_num]
  rfl


/-- C8 (amended): for substring(s, start, length?) whose rounded start and
length values stay within the machine integer range (within ±2^62 here, so
that no `int(float64)` conversion is out of range and no int64 arithmetic
wraps), and whose start is not infinite, the evaluation on either
architecture matches the positional specification: positions are 1-based
Unicode code points, start and length are rounded, a NaN start yields the
empty string, an infinite length saturates to maxInt16/minInt16, and a
negative start is clamped to position 1, the kept characters being the
intersection of the rounded position range with the string's positions.
Outside that range the conversion is implementation-dependent and the
clamping clause fails — see `substring_overflow_counterexample`, where a
hugely negative start makes the source return "" instead of the clamped
whole string. -/
theorem substring_machine_matches_spec (arch : Arch) (s : List Char) (d1 : XFloat)
    (d2 : Option XFloat) (h : d1.isInf = false)
    (h1 : ∀ q, d1 = XFloat.fin q → -(2 ^ 62) ≤ roundToInt q ∧ roundToInt q ≤ 2 ^ 62)
    (h2 : ∀ l, d2 = some (XFloat.fin l) →
      -(2 ^ 62) ≤ roundToInt l ∧ roundToInt l ≤ 2 ^ 62) :
    substringEvalM arch s d1 d2 = substringSpec s d1 d2 := by
  rw [substringEvalM_eq_inrange arch s d1 d2 h h1 h2]
  exact substringEval_eq_spec s d1 d2 h

/-- Closed instance of the C8 theorem at substring("abc", -1, 3) on amd64:
the rounded start -1 and length 3 are in range, and the machine evaluation
matches the positional specification. -/
theorem substring_machine_matches_spec_witness :
    (XFloat.fin (-1)).isInf = false
    ∧ (∀ q, XFloat.fin (-1) = XFloat.fin q →
        -(2 ^ 62) ≤ roundToInt q ∧ roundToInt q ≤ 2 ^ 62)
    ∧ (∀ l, (some (XFloat.fin 3) : Option XFloat) = some (XFloat.fin l) →
        -(2 ^ 62) ≤ roundToInt l ∧ roundToInt l ≤ 2 ^ 62)
    ∧ substringEvalM .amd64 ['a', 'b', 'c'] (XFloat.fin (-1)) (some (XFloat.fin 3))
        = substringSpec ['a', 'b', 'c'] (XFloat.fin (-1)) (some (XFloat.fin 3)) := by
  have hq : roundToInt (-1 : ℚ) = -1 := by
    unfold roundToInt
    rw [if_neg (by norm_num)]
    norm_num [Int.floor_eq_iff]
  have hl : roundToInt (3 : ℚ) = 3 := by
    unfold roundToInt
    rw [if_neg (by norm_num)]
    norm_num [Int.floor_eq_iff]
  have h1 : ∀ q, XFloat.fin (-1) = XFloat.fin q →
      -(2 ^ 62) ≤ roundToInt q ∧ roundToInt q ≤ 2 ^ 62 := by
    intro q hq2
    injection hq2 with h3
    rw [← h3, hq]
    norm_num
  have h2 : ∀ l, (some (XFloat.fin 3) : Option XFloat) = some (XFloat.fin l) →
      -(2 ^ 62) ≤ roundToInt l ∧ roundToInt l ≤ 2 ^ 62 := by
    intro l hl2
    injection hl2 with h3
    injection h3 with h4
    rw [← h4, hl]
    norm_num
  exact ⟨by decide, h1, h2,
    substring_machine_matches_spec .amd64 _ _ _ (by decide) h1 h2⟩

end Substr

/-- Static type tag of an expression (eval.go `DataType`; `unknown` only at
compile time). -/
inductive DataType where
  | unknown : DataType
  | nodeSet : DataType
  | string : DataType
  | number : DataType
  | boolean : DataType
deriving DecidableEq

namespace Vars

/-- Dynamic value a `Variables` hook can return: one of the four value kinds,
or `other` standing for any Go value outside them (on which `TypeOf` panics
with `InvalidValueError`).  `Node` is the abstract DOM node type. -/
inductive GoValue (Node : Type) where
  | nodeSetV : List Node → GoValue Node
  | stringV : List Char → GoValue Node
  | numberV : XFloat → GoValue Node
  | booleanV : Bool → GoValue Node
  | other : GoValue Node
deriving DecidableEq

/-- True exactly on node-set values (the Go type assertion `r.([]dom.Node)`). -/
def GoValue.isNodeSet {Node : Type} : GoValue Node → Bool
  | .nodeSetV _ => true
  | _ => false

/-- True on the four valid kinds; false on `other` (where `TypeOf` panics). -/
def GoValue.isValidKind {Node : Type} : GoValue Node → Bool
  | .other => false
  | _ => true

/-- Evaluation-time errors of variable.Eval (errors.go). -/
inductive VarError where
  | unresolvedVariable : String → VarError
  | varMustBeNodeSet : String → VarError
  | invalidValue : VarError
deriving DecidableEq

/-- The variable lookup a `variable` expression performs: `ctx.Vars` may be
nil (`none`), and the hook returns nil (`none`) for an unbound name; both
make variable.Eval panic with `UnresolvedVariableError`. -/
def lookupVar {Node : Type} (vars : Option (String → Option (GoValue Node)))
    (name : String) : Option (GoValue Node) :=
  vars.bind (fun f => f name)

/-- Embedding of variable.Eval: nil vars or an unbound name panic with
UnresolvedVariableError; a statically NodeSet-typed variable whose value is
not a node-set panics with VarMustBeNodeSet; then `TypeOf(r)` panics with
InvalidValueError on a value outside the four kinds; otherwise the bound
value is returned unchanged. -/
def variableEval {Node : Type} (name : String) (returns : DataType)
    (vars : Option (String → Option (GoValue Node))) :
    Except VarError (GoValue Node) :=
  match lookupVar vars name with
  | none => .error (.unresolvedVariable name)
  | some r =>
    if returns = .nodeSet ∧ r.isNodeSet = false then .error (.varMustBeNodeSet name)
    else if r.isValidKind = false then .error .invalidValue
    else .ok r

/-- C6: a variable reference fails with UnresolvedVariable when nothing is
bound for its Clark name, with VarMustBeNodeSet when it was statically
refined to NodeSet and the bound value is not a node-set, with InvalidValue
when the bound value is outside the four value kinds (and the NodeSet case
did not already fire), and otherwise returns the bound value unchanged. -/
theorem variable_eval_errors (Node : Type) (name : String) (returns : DataType)
    (vars : Option (String → Option (GoValue Node))) :
    (lookupVar vars name = none →
        variableEval name returns vars = .error (.unresolvedVariable name))
    ∧ (∀ r, lookupVar vars name = some r → returns = .nodeSet → r.isNodeSet = false →
        variableEval name returns vars = .error (.varMustBeNodeSet name))
    ∧ (∀ r, lookupVar vars name = some r → (returns = .nodeSet → r.isNodeSet = true) →
        r.isValidKind = false →
        variableEval name returns vars = .error .invalidValue)
    ∧ (∀ r, lookupVar vars name = some r → (returns = .nodeSet → r.isNodeSet = true) →
        r.isValidKind = true →
        variableEval name returns vars = .ok r) := by
  refine ⟨?_, ?_, ?_, ?_⟩
  · intro h
    simp [variableEval, h]
  · intro r h hrt hns
    simp [variableEval, h, hrt, hns]
  · intro r h hrt hvk
    unfold variableEval
    rw [h]
    have hcase : ¬ (returns = DataType.nodeSet ∧ r.isNodeSet = false) := by
      rintro ⟨h1, h2⟩
      rw [hrt h1] at h2
      simp at h2
    dsimp only
    rw [if_neg hcase, if_pos hvk]
  · intro r h hrt hvk
    unfold variableEval
    rw [h]
    have hcase : ¬ (returns = DataType.nodeSet ∧ r.isNodeSet = false) := by
      rintro ⟨h1, h2⟩
      rw [hrt h1] at h2
      simp at h2
    dsimp only
    rw [if_neg hcase, if_neg (by simp [hvk])]

/-- Witness for C6: all four clauses at concrete bindings. -/
theorem variable_eval_errors_witness :
    @variableEval Unit "v" .unknown none = .error (.unresolvedVariable "v")
    ∧ @variableEval Unit "v" .nodeSet (some fun _ => some (.stringV ['a']))
        = .error (.varMustBeNodeSet "v")
    ∧ @variableEval Unit "v" .unknown (some fun _ => some .other)
        = .error .invalidValue
    ∧ @variableEval Unit "v" .unknown (some fun _ => some (.booleanV true))
        = .ok (.booleanV true) :=
  ⟨(variable_eval_errors Unit "v" .unknown none).1 rfl,
   (variable_eval_errors Unit "v" .nodeSet _).2.1 _ rfl rfl rfl,
   (variable_eval_errors Unit "v" .unknown _).2.2.1 _ rfl (by intro h; cases h) rfl,
   (variable_eval_errors Unit "v" .unknown _).2.2.2 _ rfl (by intro h; cases h) rfl⟩

end Vars

namespace Preds

/-- Truncation toward zero on an exact rational: the value of the Go
conversion `int(f)` for a finite float whose truncation is representable in
int64. -/
def qtrunc (q : ℚ) : ℤ :=
  if q < 0 then ⌈q⌉ else ⌊q⌋

/-- Go conversion `int(i)` on a float64 as predicates.eval applies it to a
predicate's numeric value.  NaN and the infinities convert to
implementation-specific out-of-range machine values (the Go spec leaves the
result open; amd64 produces -2^63, arm64 saturates), which can never equal
the 1-based position of a node in a materialisable sequence, so they are
modelled as `none` — matching no position. -/
def goInt : XFloat → Option ℤ
  | .fin q => some (qtrunc q)
  | _ => none

/-- Value of a predicate expression: one of the four value kinds.  (A user
function returning a value outside the four kinds makes Value2Boolean panic
in the source; such values cannot reach the keep test.) -/
inductive PValue (Node : Type) where
  | ns : List Node → PValue Node
  | str : List Char → PValue Node
  | num : XFloat → PValue Node
  | bool : Bool → PValue Node
deriving DecidableEq

/-- Value2Boolean from eval.go: node-set and string are true when non-empty,
a number is true unless zero or NaN, a boolean is itself. -/
def value2Boolean {Node : Type} : PValue Node → Bool
  | .ns l => decide (0 < l.length)
  | .str s => decide (0 < s.length)
  | .num x =>
    match x with
    | .nan => false
    | .inf _ => true
    | .fin q => decide (¬ q = 0)
  | .bool b => b

/-- Evaluation context (part_002 `Context`), without the variable bindings:
predicates.eval passes `vars` through unchanged to the predicate, so the
bindings are absorbed into the predicate's function value here. -/
structure Ctx (Node : Type) where
  node : Option Node
  pos : ℕ
  size : ℕ

/-- The keep test of predicates.eval for one node: a numeric predicate value
`i` keeps the node iff `Pos == int(i)`; any other value is converted to
boolean. -/
def keepTest {Node : Type} (pval : PValue Node) (pos : ℕ) : Bool :=
  match pval with
  | .num i => decide (goInt i = some (pos : ℤ))
  | v => value2Boolean v

/-- One pass of predicates.eval for a single predicate expression `p`
(embedded by its Eval function): the context starts at Pos 0 and is
incremented before evaluating `p` on each node, Size is the input length,
kept nodes are appended in order. -/
def predPass {Node : Type} (p : Ctx Node → PValue Node) (size : ℕ) :
    ℕ → List Node → List Node
  | _, [] => []
  | pos, n :: rest =>
    (if keepTest (p ⟨some n, pos + 1, size⟩) (pos + 1) then [n] else [])
      ++ predPass p size (pos + 1) rest

/-- predicates.eval: each predicate in order consumes the filtered result of
the previous one, with a fresh context sized to the current sequence. -/
def predsEval {Node : Type} (ps : List (Ctx Node → PValue Node))
    (ns : List Node) : List Node :=
  match ps with
  | [] => ns
  | p :: rest => predsEval rest (predPass p ns.length 0 ns)

/-- Positional rule exactly as the claim words it: a numeric predicate value
`i` keeps the node at position pos iff `pos == round(i)` (the engine's
round: floor(i+0.5), exact 0.5 giving 0, NaN/infinities never equal to a
position); other values convert to boolean. -/
def claimKeep {Node : Type} (pval : PValue Node) (pos : ℕ) : Bool :=
  match pval with
  | .num (.fin q) => decide (Substr.roundToInt q = (pos : ℤ))
  | .num _ => false
  | v => value2Boolean v

/-- One predicate pass under the claim's round-based positional rule. -/
def claimPass {Node : Type} (p : Ctx Node → PValue Node) (size : ℕ) :
    ℕ → List Node → List Node
  | _, [] => []
  | pos, n :: rest =>
    (if claimKeep (p ⟨some n, pos + 1, size⟩) (pos + 1) then [n] else [])
      ++ claimPass p size (pos + 1) rest

/-- Chained predicate evaluation under the claim's round-based rule. -/
def claimPredsEval {Node : Type} (ps : List (Ctx Node → PValue Node))
    (ns : List Node) : List Node :=
  match ps with
  | [] => ns
  | p :: rest => claimPredsEval rest (claimPass p ns.length 0 ns)

/-- Counterexample to C3: the constant numeric predicate 2.5 over a
three-node sequence.  The code truncates (`int(2.5) = 2`) and keeps the
second node; the claim rounds (`round(2.5) = 3`) and would keep the third. -/
theorem predicates_round_counterexample :
    predsEval [fun _ => PValue.num (XFloat.fin (5 / 2))] [0, 1, 2] = [1]
    ∧ claimPredsEval [fun _ => PValue.num (XFloat.fin (5 / 2))] [0, 1, 2] = [2] := by
  constructor
  · show predPass _ _ _ _ = _
    norm_num [predPass, keepTest, goInt, qtrunc]
  · show claimPass _ _ _ _ = _
    norm_num [claimPass, claimKeep, Substr.roundToInt]

theorem predPass_enumFrom {Node : Type} (p : Ctx Node → PValue Node)
    (size : ℕ) (o : ℕ) (l : List Node) :
    predPass p size o l
      = ((List.enumFrom o l).filter (fun pr =>
          keepTest (p ⟨some pr.2, pr.1 + 1, size⟩) (pr.1 + 1))).map Prod.snd := by
  induction l generalizing o with
  | nil => rfl
  | cons n rest ih =>
    rw [List.enumFrom_cons, List.filter_cons]
    show (if keepTest (p ⟨some n, o + 1, size⟩) (o + 1) then [n] else [])
        ++ predPass p size (o + 1) rest = _
    by_cases hk : keepTest (p ⟨some n, o + 1, size⟩) (o + 1) = true
    · rw [if_pos hk, if_pos hk, List.map_cons, ih (o + 1)]
      rfl
    · rw [if_neg hk, if_neg hk, ih (o + 1)]
      rfl

/-- C3 (amended): a numeric predicate value `i` keeps the node at 1-based
position pos iff `pos == int(i)` — Go truncation toward zero, not rounding —
a non-numeric value keeps the node iff it converts to boolean true, and
chained predicates apply left-to-right, each consuming the filtered result
of the previous. -/
theorem predicates_eval_characterisation (Node : Type) :
    (∀ (p : Ctx Node → PValue Node) (ps : List (Ctx Node → PValue Node))
        (ns : List Node),
        predsEval (p :: ps) ns = predsEval ps (predsEval [p] ns))
    ∧ (∀ (p : Ctx Node → PValue Node) (ns : List Node),
        predsEval [p] ns
          = ((ns.enum).filter (fun pr =>
              keepTest (p ⟨some pr.2, pr.1 + 1, ns.length⟩) (pr.1 + 1))).map Prod.snd) := by
  constructor
  · intro p ps ns
    rfl
  · intro p ns
    show predPass p ns.length 0 ns = _
    exact predPass_enumFrom p ns.length 0 ns

/-- Context built by XPath.Eval for the whole evaluation (part_002):
`Context{n, 0, 1, vars}` — position 0, size 1. -/
def topContext {Node : Type} (n : Option Node) : Ctx Node :=
  ⟨n, 0, 1⟩

/-- position.Eval from functions.go: `float64(ctx.Pos)`. -/
def positionEval {Node : Type} (c : Ctx Node) : PValue Node :=
  .num (.fin c.pos)

/-- Counterexample to C7: the top-level context XPath.Eval passes to the
compiled expression carries position 0, so evaluating `position()` there
returns the number 0, which is smaller than 1. -/
theorem top_level_position_counterexample :
    (@topContext Unit none).pos = 0
    ∧ positionEval (@topContext Unit none) = PValue.num (XFloat.fin 0) :=
  ⟨rfl, rfl⟩

theorem predPass_position_congr {Node : Type} (p q : Ctx Node → PValue Node)
    (h : ∀ c, 1 ≤ c.pos → p c = q c) (size : ℕ) (o : ℕ) (l : List Node) :
    predPass p size o l = predPass q size o l := by
  induction l generalizing o with
  | nil => rfl
  | cons n rest ih =>
    show (if keepTest (p ⟨some n, o + 1, size⟩) (o + 1) then [n] else [])
        ++ predPass p size (o + 1) rest
      = (if keepTest (q ⟨some n, o + 1, size⟩) (o + 1) then [n] else [])
        ++ predPass q size (o + 1) rest
    rw [h ⟨some n, o + 1, size⟩ (by simp), ih (o + 1)]

/-- C7 (amended): every context that predicate evaluation constructs has a
1-based position of at least 1 — a predicate pass cannot observe any value a
predicate expression takes on contexts with position below 1 — although the
top-level context of XPath.Eval itself carries position 0. -/
theorem predicate_position_one_based {Node : Type}
    (p q : Ctx Node → PValue Node)
    (h : ∀ c, 1 ≤ c.pos → p c = q c) (ns : List Node) :
    predsEval [p] ns = predsEval [q] ns :=
  predPass_position_congr p q h ns.length 0 ns

/-- Witness for C7's amended theorem: a predicate testing `1 ≤ position`
behaves like the constant-true predicate over a two-node sequence. -/
theorem predicate_position_one_based_witness :
    predsEval [fun c => PValue.bool (decide (1 ≤ c.pos))] [(), ()]
      = predsEval [fun _ => PValue.bool true] [(), ()] :=
  predicate_position_one_based _ _
    (fun c hc => by simp [hc]) [(), ()]

end Preds

namespace NsAxis

/-- Minimal DOM view touched by namespaceAxis (iter.go): an element carries
its own prefix-to-URI declarations (a Go map — keys distinct, iteration
order arbitrary; modelled as an association list) and its structural parent;
every other node kind only carries a parent. -/
inductive NNode where
  | element (nsdecl : List (String × String)) (parent : Option NNode)
  | other (parent : Option NNode)

/-- Synthesized dom.NameSpace pseudo-node: owner element, prefix, URI. -/
structure NsNode where
  owner : NNode
  pfx : String
  uri : String

/-- The implicit xml prefix binding every element carries. -/
def xmlURI : String := "http://www.w3.org/XML/1998/namespace"

/-- Declaration lists of the ancestor elements of a node, innermost first,
stopping at the first non-element ancestor — the sequence the loop in
namespaceAxis walks with `e = e.Parent()`. -/
def chainOfParent : Option NNode → List (List (String × String))
  | some (NNode.element ds par) => ds :: chainOfParent par
  | _ => []

/-- Declaration lists of a node itself and its ancestor elements. -/
def chainOf : NNode → List (List (String × String))
  | .element ds par => ds :: chainOfParent par
  | .other _ => []

/-- Collection loop of namespaceAxis: consume the current element's
declarations one at a time, skipping prefixes already in the seen set `m`,
then move outward through the remaining ancestors' declaration lists; every
synthesized node is owned by the context element. -/
def nsLoop (owner : NNode) : List String → List (String × String) →
    List (List (String × String)) → List NsNode
  | _, [], [] => []
  | m, [], ds :: rest => nsLoop owner m ds rest
  | m, (p, u) :: ds, rest =>
    if p ∈ m then nsLoop owner m ds rest
    else ⟨owner, p, u⟩ :: nsLoop owner (p :: m) ds rest
termination_by _m curr rest => (rest.length, curr.length)

/-- namespaceAxis from iter.go: an element yields the implicit xml binding
first (never added to the seen set) and then one node per first occurrence
of a declared prefix walking outward; every other node kind yields nothing. -/
def namespaceAxis : NNode → List NsNode
  | .element ds par =>
    ⟨.element ds par, "xml", xmlURI⟩ :: nsLoop (.element ds par) [] [] (chainOf (.element ds par))
  | .other _ => []

/-- First-occurrence deduplication of declaration entries by prefix,
relative to an already-seen set: the denotation of `nsLoop`. -/
def dedupFrom (m : List String) : List (String × String) → List (String × String)
  | [] => []
  | (p, u) :: rest =>
    if p ∈ m then dedupFrom m rest
    else (p, u) :: dedupFrom (p :: m) rest

/-- URI of the first yielded namespace node carrying prefix `p`. -/
def nsLookup (p : String) (l : List NsNode) : Option String :=
  (l.find? (fun nn => nn.pfx == p)).map NsNode.uri

theorem nsLoop_eq (owner : NNode) (m : List String) (curr : List (String × String))
    (rest : List (List (String × String))) :
    nsLoop owner m curr rest
      = (dedupFrom m (curr ++ rest.flatten)).map (fun d => (⟨owner, d.1, d.2⟩ : NsNode)) := by
  induction m, curr, rest using nsLoop.induct owner with
  | case1 m => simp [nsLoop, dedupFrom]
  | case2 m ds rest ih =>
    rw [nsLoop]
    rw [ih]
    simp
  | case3 m p u ds rest hmem ih =>
    rw [nsLoop, if_pos hmem, ih]
    have hl : (p, u) :: ds ++ rest.flatten = (p, u) :: (ds ++ rest.flatten) := rfl
    rw [hl, dedupFrom, if_pos hmem]
  | case4 m p u ds rest hmem ih =>
    rw [nsLoop, if_neg hmem, ih]
    have hl : (p, u) :: ds ++ rest.flatten = (p, u) :: (ds ++ rest.flatten) := rfl
    rw [hl, dedupFrom, if_neg hmem]
    simp

theorem dedupFrom_mem (l : List (String × String)) (m : List String) (p : String) :
    p ∈ (dedupFrom m l).map Prod.fst ↔ p ∉ m ∧ p ∈ l.map Prod.fst := by
  induction l generalizing m with
  | nil => simp [dedupFrom]
  | cons d rest ih =>
    obtain ⟨dp, du⟩ := d
    rw [dedupFrom]
    by_cases hm : dp ∈ m
    · rw [if_pos hm, ih]
      simp only [List.map_cons, List.mem_cons]
      constructor
      · rintro ⟨h1, h2⟩
        exact ⟨h1, Or.inr h2⟩
      · rintro ⟨h1, h2 | h2⟩
        · subst h2
          exact absurd hm h1
        · exact ⟨h1, h2⟩
    · rw [if_neg hm]
      simp only [List.map_cons, List.mem_cons, ih]
      constructor
      · rintro (h | ⟨h1, h2⟩)
        · subst h
          exact ⟨hm, Or.inl rfl⟩
        · exact ⟨fun hc => h1 (Or.inr hc), Or.inr h2⟩
      · rintro ⟨h1, h2 | h2⟩
        · exact Or.inl h2
        · by_cases hpd : p = dp
          · exact Or.inl hpd
          · refine Or.inr ⟨?_, h2⟩
            intro hc
            rcases hc with h | h
            · exact hpd h
            · exact h1 h

theorem dedupFrom_nodup (l : List (String × String)) (m : List String) :
    ((dedupFrom m l).map Prod.fst).Nodup := by
  induction l generalizing m with
  | nil => simp [dedupFrom]
  | cons d rest ih =>
    obtain ⟨dp, du⟩ := d
    rw [dedupFrom]
    by_cases hm : dp ∈ m
    · rw [if_pos hm]; exact ih m
    · rw [if_neg hm]
      simp only [List.map_cons, List.nodup_cons]
      refine ⟨?_, ih (dp :: m)⟩
      intro hc
      have := (dedupFrom_mem rest (dp :: m) dp).mp hc
      simp at this


theorem dedupFrom_lookup (l : List (String × String)) (m : List String) (p : String)
    (hp : p ∉ m) :
    (dedupFrom m l).lookup p = l.lookup p := by
  induction l generalizing m with
  | nil => simp [dedupFrom]
  | cons d rest ih =>
    obtain ⟨dp, du⟩ := d
    rw [dedupFrom]
    by_cases hm : dp ∈ m
    · rw [if_pos hm, List.lookup, ih m hp]
      have : (p == dp) = false := by
        simp only [beq_eq_false_iff_ne, ne_eq]
        intro hc; subst hc; exact hp hm
      rw [this]
    · rw [if_neg hm, List.lookup, List.lookup]
      by_cases hpd : p = dp
      · subst hpd; simp
      · have hb : (p == dp) = false := by simp [hpd]
        rw [hb]
        exact ih (dp :: m) (by simp [hp, hpd])

theorem nsLookup_map (owner : NNode) (l : List (String × String)) (p : String) :
    nsLookup p (l.map (fun d => (⟨owner, d.1, d.2⟩ : NsNode))) = l.lookup p := by
  induction l with
  | nil => simp [nsLookup]
  | cons d rest ih =>
    obtain ⟨dp, du⟩ := d
    simp only [List.map_cons, nsLookup, List.find?, List.lookup]
    by_cases hpd : dp = p
    · subst hpd
      simp
    · have h1 : ((⟨owner, dp, du⟩ : NsNode).pfx == p) = false := by simp [hpd]
      have h2 : (p == dp) = false := by simp [Ne.symm hpd]
      rw [h1, h2]
      exact ih


theorem namespace_axis_tail (ds : List (String × String)) (par : Option NNode) :
    (namespaceAxis (NNode.element ds par)).tail
      = (dedupFrom [] ((chainOf (NNode.element ds par)).flatten)).map
          (fun d => (⟨NNode.element ds par, d.1, d.2⟩ : NsNode)) := by
  show nsLoop (NNode.element ds par) [] [] (chainOf (NNode.element ds par)) = _
  rw [nsLoop_eq]
  simp

/-- C10: for an element context node the namespace axis yields at least one
node, the first being a synthesized NameSpace node binding xml to the XML
namespace URI and owned by the context element (as is every yielded node);
the subsequent nodes carry each prefix declared on the element or its
ancestor elements exactly once, the innermost declaration determining the
URI; a non-element context node yields no namespace nodes. -/
theorem namespace_axis_characterisation :
    (∀ (ds : List (String × String)) (par : Option NNode),
        (namespaceAxis (NNode.element ds par)).head?
          = some ⟨NNode.element ds par, "xml", xmlURI⟩)
    ∧ (∀ (ds : List (String × String)) (par : Option NNode),
        (namespaceAxis (NNode.element ds par)).map NsNode.owner
          = List.replicate (namespaceAxis (NNode.element ds par)).length
              (NNode.element ds par))
    ∧ (∀ (ds : List (String × String)) (par : Option NNode),
        (((namespaceAxis (NNode.element ds par)).tail).map NsNode.pfx).Nodup)
    ∧ (∀ (ds : List (String × String)) (par : Option NNode) (p : String),
        p ∈ ((namespaceAxis (NNode.element ds par)).tail).map NsNode.pfx
          ↔ p ∈ ((chainOf (NNode.element ds par)).flatten).map Prod.fst)
    ∧ (∀ (ds : List (String × String)) (par : Option NNode) (p : String),
        nsLookup p ((namespaceAxis (NNode.element ds par)).tail)
          = ((chainOf (NNode.element ds par)).flatten).lookup p)
    ∧ (∀ par, namespaceAxis (NNode.other par) = []) := by
  refine ⟨?_, ?_, ?_, ?_, ?_, ?_⟩
  · intro ds par
    rfl
  · intro ds par
    have ht := namespace_axis_tail ds par
    have hx : namespaceAxis (NNode.element ds par)
        = ⟨NNode.element ds par, "xml", xmlURI⟩ :: (namespaceAxis (NNode.element ds par)).tail := rfl
    rw [hx, ht, List.map_cons, List.length_cons, List.replicate_succ]
    congr 1
    rw [List.map_map]
    have hc : (NsNode.owner ∘ fun (d : String × String) =>
          (⟨NNode.element ds par, d.1, d.2⟩ : NsNode))
        = fun _ => NNode.element ds par := rfl
    rw [hc, List.length_map]
    exact List.map_const' _ _
  · intro ds par
    rw [namespace_axis_tail]
    have : NsNode.pfx ∘ (fun d => (⟨NNode.element ds par, d.1, d.2⟩ : NsNode)) = Prod.fst := rfl
    rw [List.map_map, this]
    exact dedupFrom_nodup _ _
  · intro ds par p
    rw [namespace_axis_tail]
    have : NsNode.pfx ∘ (fun d => (⟨NNode.element ds par, d.1, d.2⟩ : NsNode)) = Prod.fst := rfl
    rw [List.map_map, this, dedupFrom_mem]
    simp
  · intro ds par p
    rw [namespace_axis_tail, nsLookup_map, dedupFrom_lookup]
    simp
  · intro par
    rfl

end NsAxis

namespace DocOrder

/-- Document tree as the comparator sees it: the root is the Document node;
every node has ordered children; attribute names and namespace prefixes are
recorded where the comparator reads them (attr by qualified-name string, ns
by prefix). -/
inductive DTree where
  | node (attrs : List String) (nss : List String) (kids : List DTree)

/-- Identity of a node in a document: a child node is its path of child
indices from the root; an attribute or namespace node is its owner's path
plus its index in the owner's attribute/namespace list. -/
inductive NodeRef where
  | child (path : List ℕ)
  | attr (path : List ℕ) (i : ℕ)
  | nsn (path : List ℕ) (i : ℕ)
deriving DecidableEq

/-- Ordered children of a node. -/
def DTree.kids : DTree → List DTree
  | .node _ _ k => k

/-- Subtree at a child path, `none` when the path leaves the document. -/
def subtreeAt : DTree → List ℕ → Option DTree
  | t, [] => some t
  | t, i :: rest =>
    match t.kids.get? i with
    | some k => subtreeAt k rest
    | none => none

/-- A child path denotes a node of the document. -/
def validChildPath (d : DTree) (p : List ℕ) : Bool :=
  (subtreeAt d p).isSome

/-- Number of children of the node at a path (`len(parent.Children())`). -/
def childCount (d : DTree) (p : List ℕ) : ℕ :=
  match subtreeAt d p with
  | some t => t.kids.length
  | none => 0

/-- Qualified-name string of the i-th attribute of the element at `p`
(`Attr.Name.String()` in the source). -/
def attrNameAt (d : DTree) (p : List ℕ) (i : ℕ) : String :=
  match subtreeAt d p with
  | some (.node attrs _ _) => attrs.getD i ""
  | none => ""

/-- Prefix of the i-th namespace node of the element at `p`. -/
def nsPrefixAt (d : DTree) (p : List ℕ) (i : ℕ) : String :=
  match subtreeAt d p with
  | some (.node _ nss _) => nss.getD i ""
  | none => ""

/-- strings.Compare: -1, 0, or 1 (Go byte order and code-point order agree
because UTF-8 preserves code-point order). -/
def strCmpZ (a b : String) : ℤ :=
  match compare a b with
  | .lt => -1
  | .eq => 0
  | .gt => 1

/-- isChild from order.go: every node kind except Attr and NameSpace. -/
def isChildRef : NodeRef → Bool
  | .child _ => true
  | _ => false

/-- depth from order.go: number of XPath-parents up to the root. -/
def refDepth : NodeRef → ℕ
  | .child p => p.length
  | .attr p _ => p.length + 1
  | .nsn p _ => p.length + 1

/-- parent from iter.go: the XPath-parent (an attr/ns node is re-routed to
its owner element).  The root maps to itself here; the source returns nil,
and every use below compares parents for equality exactly as the source
compares possibly-nil pointers (nil equals nil). -/
def parentOf : NodeRef → NodeRef
  | .child p => .child p.dropLast
  | .attr p _ => .child p
  | .nsn p _ => .child p

/-- The `for d1 > d2 ... a1 = parent(a1)` walk of cmp: climb to depth `dd`
(no-op when the node is already at or below that depth). -/
def walkUpTo : NodeRef → ℕ → NodeRef
  | .child p, dd => .child (p.take dd)
  | .attr p i, dd => if p.length + 1 ≤ dd then .attr p i else .child (p.take dd)
  | .nsn p i, dd => if p.length + 1 ≤ dd then .nsn p i else .child (p.take dd)

/-- cmpSiblings from order.go, for two nodes with the same XPath-parent:
a non-child first argument returns 1 and a non-child second argument -1
(despite the source comment saying attributes and namespaces sort before
child nodes — see `cmp_attr_after_children`); two child nodes compare by
scanning the following siblings of the first for the second. -/
def cmpSiblingsRef (d : DTree) (s1 s2 : NodeRef) : ℤ :=
  if isChildRef s1 = false then 1
  else if isChildRef s2 = false then -1
  else
    match s1, s2 with
    | .child p1, .child p2 =>
      if p1.getLastD 0 < p2.getLastD 0 ∧ p2.getLastD 0 < childCount d p1.dropLast
      then -1 else 1
    | _, _ => 1

/-- The final loop of cmp: walk both equal-depth nodes up in lockstep until
their parents coincide, then compare as siblings.  The loop terminates in
the source because both nodes lie in one document; the fuel argument (the
common depth at every call site) bounds the walk without changing any
reachable value. -/
def lockstep (d : DTree) : ℕ → NodeRef → NodeRef → ℤ
  | 0, a1, a2 => cmpSiblingsRef d a1 a2
  | fuel + 1, a1, a2 =>
    if parentOf a1 = parentOf a2 then cmpSiblingsRef d a1 a2
    else lockstep d fuel (parentOf a1) (parentOf a2)

/-- Depth-walk part of cmp (everything after the both-non-child branch):
climb the deeper node to the shallower depth; if it reaches the other node
that other node is an ancestor (the climbed one compares greater); then walk
in lockstep.  When d1 ≤ d2 the source's first loop does not run and the
`a1 == n2` test can only see the (excluded) equal case, which `walkUpTo`
reproduces. -/
def deepWalk (d : DTree) (n1 n2 : NodeRef) : ℤ :=
  let dm := min (refDepth n1) (refDepth n2)
  let a1 := walkUpTo n1 dm
  if a1 = n2 then 1
  else
    let a2 := walkUpTo n2 dm
    if a2 = n1 then -1
    else lockstep d dm a1 a2

/-- cmp from order.go: 0 on identity; two attr/ns nodes with the same owner
order namespaces before attributes, namespaces by prefix and attributes by
qualified name, and with different owners compare the owner elements;
otherwise the depth walk.  (cmp(p1,p2) on the two distinct owner elements
immediately takes the depth walk, inlined here as `deepWalk`.) -/
def cmpRef (d : DTree) (n1 n2 : NodeRef) : ℤ :=
  if n1 = n2 then 0
  else
    match n1, n2 with
    | .nsn p1 i1, .nsn p2 i2 =>
      if p1 = p2 then strCmpZ (nsPrefixAt d p1 i1) (nsPrefixAt d p2 i2)
      else deepWalk d (.child p1) (.child p2)
    | .nsn p1 _, .attr p2 _ =>
      if p1 = p2 then -1 else deepWalk d (.child p1) (.child p2)
    | .attr p1 _, .nsn p2 _ =>
      if p1 = p2 then 1 else deepWalk d (.child p1) (.child p2)
    | .attr p1 i1, .attr p2 i2 =>
      if p1 = p2 then strCmpZ (attrNameAt d p1 i1) (attrNameAt d p2 i2)
      else deepWalk d (.child p1) (.child p2)
    | _, _ => deepWalk d n1 n2

/-- Lexicographic comparison of child paths with a proper prefix ordered
first: the mathematical document order on child nodes. -/
def pathCompare : List ℕ → List ℕ → ℤ
  | [], [] => 0
  | [], _ :: _ => -1
  | _ :: _, [] => 1
  | i :: p, j :: q => if i < j then -1 else if j < i then 1 else pathCompare p q

theorem pathCompare_self (p : List ℕ) : pathCompare p p = 0 := by
  induction p with
  | nil => rfl
  | cons i rest ih => simp [pathCompare, ih]

theorem pathCompare_prefix (p s : List ℕ) (hs : s ≠ []) :
    pathCompare p (p ++ s) = -1 := by
  induction p with
  | nil =>
    match s, hs with
    | x :: t, _ => rfl
  | cons i rest ih => simp [pathCompare, ih]

theorem pathCompare_div (r : List ℕ) (i j : ℕ) (s1 s2 : List ℕ) (hij : i ≠ j) :
    pathCompare (r ++ i :: s1) (r ++ j :: s2) = if i < j then -1 else 1 := by
  induction r with
  | nil =>
    simp only [List.nil_append, pathCompare]
    rcases Nat.lt_trichotomy i j with h | h | h
    · simp [h]
    · exact absurd h hij
    · rw [if_neg (by omega), if_pos h, if_neg (by omega)]
  | cons x rest ih => simp [pathCompare, ih]

theorem pathCompare_antisymm (p q : List ℕ) : pathCompare q p = -pathCompare p q := by
  induction p generalizing q with
  | nil => cases q <;> rfl
  | cons i p ih =>
    cases q with
    | nil => rfl
    | cons j q =>
      simp only [pathCompare]
      rcases Nat.lt_trichotomy i j with h | h | h
      · have h2 : ¬ j < i := by omega
        simp [h, h2]
      · subst h
        simp [ih q]
      · have h2 : ¬ i < j := by omega
        simp [h, h2]

theorem pathCompare_trans_neg (a b c : List ℕ)
    (hab : pathCompare a b = -1) (hbc : pathCompare b c = -1) :
    pathCompare a c = -1 := by
  induction a generalizing b c with
  | nil =>
    cases c with
    | nil =>
      cases b with
      | nil => exact hbc
      | cons y q => simp [pathCompare] at hbc
    | cons z r => rfl
  | cons x p ih =>
    cases b with
    | nil => simp [pathCompare] at hab
    | cons y q =>
      cases c with
      | nil => simp [pathCompare] at hbc
      | cons z r =>
        simp only [pathCompare] at hab hbc ⊢
        rcases Nat.lt_trichotomy x y with h1 | h1 | h1
        · rcases Nat.lt_trichotomy y z with h2 | h2 | h2
          · rw [if_pos (by omega)]
          · subst h2
            rw [if_pos h1]
          · rw [if_neg (by omega), if_pos h2] at hbc
            norm_num at hbc
        · subst h1
          rw [if_neg (by omega), if_neg (by omega)] at hab
          rcases Nat.lt_trichotomy x z with h2 | h2 | h2
          · rw [if_pos h2]
          · subst h2
            rw [if_neg (by omega), if_neg (by omega)] at hbc ⊢
            exact ih q r hab hbc
          · rw [if_neg (by omega), if_pos h2] at hbc
            norm_num at hbc
        · rw [if_neg (by omega), if_pos h1] at hab
          norm_num at hab

theorem pathCompare_eq_zero_iff (p q : List ℕ) : pathCompare p q = 0 ↔ p = q := by
  induction p generalizing q with
  | nil =>
    cases q with
    | nil => simp [pathCompare]
    | cons j r => simp [pathCompare]
  | cons i p ih =>
    cases q with
    | nil => simp [pathCompare]
    | cons j r =>
      simp only [pathCompare]
      rcases Nat.lt_trichotomy i j with h | h | h
      · rw [if_pos h]
        simp
        omega
      · subst h
        rw [if_neg (by omega), if_neg (by omega)]
        simp [ih]
      · rw [if_neg (by omega), if_pos h]
        simp
        omega

theorem pathCompare_vals (p q : List ℕ) :
    pathCompare p q = -1 ∨ pathCompare p q = 0 ∨ pathCompare p q = 1 := by
  induction p generalizing q with
  | nil => cases q <;> simp [pathCompare]
  | cons i p ih =>
    cases q with
    | nil => simp [pathCompare]
    | cons j r =>
      simp only [pathCompare]
      by_cases h1 : i < j
      · simp [h1]
      · by_cases h2 : j < i
        · simp [h1, h2]
        · simpa [h1, h2] using ih r


theorem subtreeAt_append (d : DTree) (xs ys : List ℕ) :
    subtreeAt d (xs ++ ys) = (subtreeAt d xs).bind (fun t => subtreeAt t ys) := by
  induction xs generalizing d with
  | nil => simp [subtreeAt]
  | cons i rest ih =>
    show subtreeAt d (i :: (rest ++ ys)) = _
    rw [subtreeAt, subtreeAt]
    cases h : d.kids.get? i with
    | none => simp [h]
    | some k => simp [h, ih k]

theorem valid_index_bound (d : DTree) (r : List ℕ) (j : ℕ) (s : List ℕ)
    (h : validChildPath d (r ++ j :: s) = true) : j < childCount d r := by
  unfold validChildPath at h
  rw [subtreeAt_append] at h
  cases ht : subtreeAt d r with
  | none => rw [ht] at h; simp at h
  | some t =>
    rw [ht] at h
    simp only [Option.some_bind] at h
    rw [subtreeAt] at h
    cases hk : t.kids.get? j with
    | none => rw [hk] at h; simp at h
    | some k =>
      have := List.get?_eq_some.mp hk
      unfold childCount
      rw [ht]
      exact this.1

theorem path_trichotomy (p1 p2 : List ℕ) :
    p1 = p2 ∨ (∃ s, s ≠ [] ∧ p2 = p1 ++ s) ∨ (∃ s, s ≠ [] ∧ p1 = p2 ++ s)
    ∨ (∃ r i j s1 s2, i ≠ j ∧ p1 = r ++ i :: s1 ∧ p2 = r ++ j :: s2) := by
  induction p1 generalizing p2 with
  | nil =>
    cases p2 with
    | nil => exact Or.inl rfl
    | cons y q => exact Or.inr (Or.inl ⟨y :: q, List.cons_ne_nil y q, rfl⟩)
  | cons x p ih =>
    cases p2 with
    | nil => exact Or.inr (Or.inr (Or.inl ⟨x :: p, List.cons_ne_nil x p, rfl⟩))
    | cons y q =>
      by_cases hxy : x = y
      · subst hxy
        rcases ih q with h | ⟨s, hs, rfl⟩ | ⟨s, hs, rfl⟩ | ⟨r, i, j, s1, s2, hij, rfl, rfl⟩
        · exact Or.inl (by rw [h])
        · exact Or.inr (Or.inl ⟨s, hs, rfl⟩)
        · exact Or.inr (Or.inr (Or.inl ⟨s, hs, rfl⟩))
        · exact Or.inr (Or.inr (Or.inr ⟨x :: r, i, j, s1, s2, hij, rfl, rfl⟩))
      · exact Or.inr (Or.inr (Or.inr ⟨[], x, y, p, q, hxy, rfl, rfl⟩))

theorem lockstep_div (d : DTree) (r : List ℕ) (i j : ℕ) (hij : i ≠ j) :
    ∀ (n fuel : ℕ) (s1 s2 : List ℕ), s1.length = n → s2.length = n → n ≤ fuel →
    lockstep d fuel (.child (r ++ i :: s1)) (.child (r ++ j :: s2))
      = if i < j ∧ j < childCount d r then -1 else 1 := by
  intro n
  induction n with
  | zero =>
    intro fuel s1 s2 h1 h2 _
    have e1 : s1 = [] := List.length_eq_zero.mp h1
    have e2 : s2 = [] := List.length_eq_zero.mp h2
    subst e1
    subst e2
    have hpar : (r ++ [i]).dropLast = (r ++ [j]).dropLast := by
      rw [List.dropLast_concat, List.dropLast_concat]
    have hsib : cmpSiblingsRef d (.child (r ++ [i])) (.child (r ++ [j]))
        = if i < j ∧ j < childCount d r then -1 else 1 := by
      unfold cmpSiblingsRef
      simp only [isChildRef]
      rw [List.getLastD_concat, List.getLastD_concat, List.dropLast_concat]
      simp
    cases fuel with
    | zero => exact hsib
    | succ fuel =>
      rw [lockstep]
      rw [if_pos (by simp only [parentOf]; rw [hpar])]
      exact hsib
  | succ n ih =>
    intro fuel s1 s2 h1 h2 hf
    rcases List.eq_nil_or_concat s1 with rfl | ⟨t1, a, rfl⟩
    · simp at h1
    rcases List.eq_nil_or_concat s2 with rfl | ⟨t2, b, rfl⟩
    · simp at h2
    cases fuel with
    | zero => omega
    | succ fuel =>
      rw [lockstep]
      have hd1 : (r ++ i :: t1.concat a).dropLast = r ++ i :: t1 := by
        rw [List.concat_eq_append, show r ++ i :: (t1 ++ [a]) = (r ++ i :: t1) ++ [a] by simp,
          List.dropLast_concat]
      have hd2 : (r ++ j :: t2.concat b).dropLast = r ++ j :: t2 := by
        rw [List.concat_eq_append, show r ++ j :: (t2 ++ [b]) = (r ++ j :: t2) ++ [b] by simp,
          List.dropLast_concat]
      have hne : parentOf (NodeRef.child (r ++ i :: t1.concat a))
          ≠ parentOf (NodeRef.child (r ++ j :: t2.concat b)) := by
        simp only [parentOf, hd1, hd2]
        intro hc
        have := List.append_inj_right (NodeRef.child.inj hc ▸ rfl : r ++ i :: t1 = r ++ j :: t2) rfl
        simp at this
        exact hij this.1
      rw [if_neg hne]
      simp only [parentOf, hd1, hd2]
      have hl1 : t1.length = n := by
        rw [List.concat_eq_append, List.length_append] at h1
        simpa using h1
      have hl2 : t2.length = n := by
        rw [List.concat_eq_append, List.length_append] at h2
        simpa using h2
      exact ih fuel t1 t2 hl1 hl2 (by omega)


theorem take_div (r : List ℕ) (i : ℕ) (s : List ℕ) (dm : ℕ) (hdm : r.length + 1 ≤ dm) :
    (r ++ i :: s).take dm = r ++ i :: s.take (dm - r.length - 1) := by
  rw [List.take_append_eq_append_take, List.take_of_length_le (by omega)]
  congr 1
  have hx : dm - r.length = (dm - r.length - 1) + 1 := by omega
  rw [hx, List.take_succ_cons]
  simp

theorem cmpRef_child (d : DTree) (p1 p2 : List ℕ)
    (h2 : validChildPath d p2 = true) :
    cmpRef d (.child p1) (.child p2) = pathCompare p1 p2 := by
  have hc : cmpRef d (.child p1) (.child p2)
      = if (NodeRef.child p1) = (NodeRef.child p2) then 0
        else deepWalk d (.child p1) (.child p2) := rfl
  by_cases heq : p1 = p2
  · subst heq
    rw [hc, if_pos rfl, pathCompare_self]
  · rw [hc, if_neg (by simp [heq])]
    rcases path_trichotomy p1 p2 with h | ⟨s, hs, rfl⟩ | ⟨s, hs, rfl⟩
        | ⟨r, i, j, s1, s2, hij, rfl, rfl⟩
    · exact absurd h heq
    · unfold deepWalk
      simp only [refDepth, walkUpTo, List.length_append]
      have hmin : min p1.length (p1.length + s.length) = p1.length := by omega
      rw [hmin, List.take_of_length_le (le_refl _), List.take_left]
      rw [if_neg (by simp [heq]), if_pos rfl, pathCompare_prefix p1 s hs]
    · unfold deepWalk
      simp only [refDepth, walkUpTo, List.length_append]
      have hmin : min (p2.length + s.length) p2.length = p2.length := by omega
      rw [hmin, List.take_left, if_pos rfl]
      rw [pathCompare_antisymm, pathCompare_prefix p2 s hs]
      norm_num
    · unfold deepWalk
      simp only [refDepth, walkUpTo]
      have hl1 : r.length + 1 ≤ (r ++ i :: s1).length := by simp
      have hl2 : r.length + 1 ≤ (r ++ j :: s2).length := by simp
      set dm := min (r ++ i :: s1).length (r ++ j :: s2).length with hdm
      have hdm1 : r.length + 1 ≤ dm := by
        simp only [hdm]
        simp [List.length_append]
      have ht1 := take_div r i s1 dm hdm1
      have ht2 := take_div r j s2 dm hdm1
      rw [ht1, ht2]
      have hne1 : ¬ (NodeRef.child (r ++ i :: s1.take (dm - r.length - 1))
          = NodeRef.child (r ++ j :: s2)) := by
        intro hc
        have hc2 := NodeRef.child.inj hc
        have := List.append_inj_right hc2 rfl
        simp at this
        exact hij this.1
      have hne2 : ¬ (NodeRef.child (r ++ j :: s2.take (dm - r.length - 1))
          = NodeRef.child (r ++ i :: s1)) := by
        intro hc
        have hc2 := NodeRef.child.inj hc
        have := List.append_inj_right hc2 rfl
        simp at this
        exact hij this.1.symm
      rw [if_neg hne1, if_neg hne2]
      have hlen1 : (s1.take (dm - r.length - 1)).length = dm - r.length - 1 := by
        rw [List.length_take]
        have : dm ≤ (r ++ i :: s1).length := min_le_left _ _
        simp only [List.length_append, List.length_cons] at this
        omega
      have hlen2 : (s2.take (dm - r.length - 1)).length = dm - r.length - 1 := by
        rw [List.length_take]
        have : dm ≤ (r ++ j :: s2).length := min_le_right _ _
        simp only [List.length_append, List.length_cons] at this
        omega
      rw [lockstep_div d r i j hij (dm - r.length - 1) dm _ _ hlen1 hlen2 (by omega)]
      rw [pathCompare_div r i j s1 s2 hij]
      have hjb : j < childCount d r := valid_index_bound d r j s2 h2
      by_cases hij2 : i < j
      · rw [if_pos ⟨hij2, hjb⟩, if_pos hij2]
      · rw [if_neg (by intro hc; exact hij2 hc.1), if_neg hij2]


/-- A reference that denotes a child node (non-attr, non-ns) of the
document. -/
def isValidChildRef (d : DTree) : NodeRef → Bool
  | .child p => validChildPath d p
  | _ => false

/-- Ordered insertion under the comparator; together with `order` this
models order() from order.go, which delegates to Go's sort.Slice.  On
inputs where the comparator is a strict total order — the only inputs the
ordering theorem below speaks about — every comparison sort produces this
same unique sorted permutation. -/
def insertOrdered (d : DTree) (x : NodeRef) : List NodeRef → List NodeRef
  | [] => [x]
  | y :: rest => if cmpRef d x y ≤ 0 then x :: y :: rest else y :: insertOrdered d x rest

/-- order() from order.go: sort by the comparator. -/
def order (d : DTree) : List NodeRef → List NodeRef
  | [] => []
  | x :: rest => insertOrdered d x (order d rest)

/-- unionExpr.Eval from the evaluator: an empty side returns the other side
unchanged; otherwise the rhs nodes not occurring in lhs (by identity) are
appended to lhs and the result is sorted.  Note the lhs duplicates and
rhs-internal duplicates survive: the `unique` set is built from lhs only
and never extended. -/
def unionEval (d : DTree) (lhs rhs : List NodeRef) : List NodeRef :=
  if lhs = [] then rhs
  else if rhs = [] then lhs
  else order d (lhs ++ rhs.filter (fun n => decide (n ∉ lhs)))

/-- Strict document order of a node list under the code's comparator. -/
def docOrdered (d : DTree) (ns : List NodeRef) : Prop :=
  ns.Pairwise (fun a b => cmpRef d a b < 0)

theorem cmpRef_total (d : DTree) (a b : NodeRef)
    (ha : isValidChildRef d a = true) (hb : isValidChildRef d b = true) :
    cmpRef d a b ≤ 0 ∨ cmpRef d b a ≤ 0 := by
  match a, b with
  | .child p, .child q =>
    simp only [isValidChildRef] at ha hb
    rw [cmpRef_child d p q hb, cmpRef_child d q p ha, pathCompare_antisymm]
    omega

theorem cmpRef_trans_le (d : DTree) (a b c : NodeRef)
    (ha : isValidChildRef d a = true) (hb : isValidChildRef d b = true)
    (hc : isValidChildRef d c = true)
    (hab : cmpRef d a b ≤ 0) (hbc : cmpRef d b c ≤ 0) : cmpRef d a c ≤ 0 := by
  match a, b, c with
  | .child p, .child q, .child r =>
    simp only [isValidChildRef] at ha hb hc
    rw [cmpRef_child d p q hb] at hab
    rw [cmpRef_child d q r hc] at hbc
    rw [cmpRef_child d p r hc]
    rcases pathCompare_vals p q with h1 | h1 | h1
    · rcases pathCompare_vals q r with h2 | h2 | h2
      · rw [pathCompare_trans_neg p q r h1 h2]
        norm_num
      · rw [(pathCompare_eq_zero_iff q r).mp h2] at h1
        rw [h1]
        norm_num
      · rw [h2] at hbc
        norm_num at hbc
    · rw [(pathCompare_eq_zero_iff p q).mp h1]
      exact hbc
    · rw [h1] at hab
      norm_num at hab

theorem cmpRef_lt_of_le_ne (d : DTree) (a b : NodeRef)
    (hb : isValidChildRef d b = true)
    (ha : isValidChildRef d a = true)
    (hab : cmpRef d a b ≤ 0) (hne : a ≠ b) : cmpRef d a b < 0 := by
  match a, b with
  | .child p, .child q =>
    simp only [isValidChildRef] at hb
    rw [cmpRef_child d p q hb] at hab ⊢
    rcases pathCompare_vals p q with h1 | h1 | h1
    · omega
    · exact absurd (congrArg NodeRef.child ((pathCompare_eq_zero_iff p q).mp h1)) hne
    · omega

theorem perm_insertOrdered (d : DTree) (x : NodeRef) (l : List NodeRef) :
    (insertOrdered d x l).Perm (x :: l) := by
  induction l with
  | nil => exact List.Perm.refl _
  | cons y rest ih =>
    rw [insertOrdered]
    by_cases h : cmpRef d x y ≤ 0
    · rw [if_pos h]
    · rw [if_neg h]
      exact (List.Perm.cons y ih).trans (List.Perm.swap x y rest)

theorem perm_order (d : DTree) (l : List NodeRef) : (order d l).Perm l := by
  induction l with
  | nil => exact List.Perm.refl _
  | cons x rest ih =>
    rw [order]
    exact (perm_insertOrdered d x (order d rest)).trans (List.Perm.cons x ih)


theorem pairwise_insertOrdered (d : DTree) (x : NodeRef) (l : List NodeRef)
    (hx : isValidChildRef d x = true)
    (hl : ∀ n ∈ l, isValidChildRef d n = true)
    (hp : l.Pairwise (fun a b => cmpRef d a b ≤ 0)) :
    (insertOrdered d x l).Pairwise (fun a b => cmpRef d a b ≤ 0) := by
  induction l with
  | nil => simp [insertOrdered]
  | cons y rest ih =>
    rw [insertOrdered]
    rcases List.pairwise_cons.mp hp with ⟨hy, hrest⟩
    by_cases h : cmpRef d x y ≤ 0
    · rw [if_pos h]
      refine List.pairwise_cons.mpr ⟨?_, hp⟩
      intro b hb
      rcases List.mem_cons.mp hb with rfl | hb
      · exact h
      · exact cmpRef_trans_le d x y b hx (hl y (by simp)) (hl b (by simp [hb])) h (hy b hb)
    · rw [if_neg h]
      refine List.pairwise_cons.mpr ⟨?_, ih (fun n hn => hl n (by simp [hn])) hrest⟩
      intro b hb
      have hb2 := (perm_insertOrdered d x rest).mem_iff.mp hb
      rcases List.mem_cons.mp hb2 with rfl | hb3
      · rcases cmpRef_total d b y hx (hl y (by simp)) with h1 | h1
        · exact absurd h1 h
        · exact h1
      · exact hy b hb3

theorem pairwise_order (d : DTree) (l : List NodeRef)
    (hl : ∀ n ∈ l, isValidChildRef d n = true) :
    (order d l).Pairwise (fun a b => cmpRef d a b ≤ 0) := by
  induction l with
  | nil => simp [order]
  | cons x rest ih =>
    rw [order]
    refine pairwise_insertOrdered d x _ (hl x (by simp)) ?_
      (ih (fun n hn => hl n (by simp [hn])))
    intro n hn
    exact hl n (by simp [(perm_order d rest).subset hn])

/-- C2 (amended): when both operand node-set values consist of (non-attr,
non-ns) child nodes of the document and are duplicate-free, and an operand
is in document order whenever the other is empty, the union value is in
strict document order with no duplicates. -/
theorem union_eval_ordered (d : DTree) (lhs rhs : List NodeRef)
    (hv : ∀ n ∈ lhs ++ rhs, isValidChildRef d n = true)
    (hl : lhs.Nodup) (hr : rhs.Nodup)
    (hso1 : lhs = [] → docOrdered d rhs)
    (hso2 : rhs = [] → docOrdered d lhs) :
    docOrdered d (unionEval d lhs rhs) ∧ (unionEval d lhs rhs).Nodup := by
  unfold unionEval
  by_cases h1 : lhs = []
  · rw [if_pos h1]
    exact ⟨hso1 h1, hr⟩
  · rw [if_neg h1]
    by_cases h2 : rhs = []
    · rw [if_pos h2]
      exact ⟨hso2 h2, hl⟩
    · rw [if_neg h2]
      have hmv : ∀ n ∈ lhs ++ rhs.filter (fun n => decide (n ∉ lhs)),
          isValidChildRef d n = true := by
        intro n hn
        rcases List.mem_append.mp hn with h | h
        · exact hv n (List.mem_append.mpr (Or.inl h))
        · exact hv n (List.mem_append.mpr (Or.inr (List.mem_of_mem_filter h)))
      have hmn : (lhs ++ rhs.filter (fun n => decide (n ∉ lhs))).Nodup := by
        rw [List.nodup_append]
        refine ⟨hl, hr.filter _, ?_⟩
        intro a ha haf
        have := List.of_mem_filter haf
        simp only [decide_eq_true_eq] at this
        exact this ha
      have hperm := perm_order d (lhs ++ rhs.filter (fun n => decide (n ∉ lhs)))
      have hnodup := hperm.symm.nodup hmn
      refine ⟨?_, hnodup⟩
      have hple := pairwise_order d _ hmv
      have hne : (order d (lhs ++ rhs.filter (fun n => decide (n ∉ lhs)))).Pairwise
          (fun a b => a ≠ b) := hnodup
      refine List.Pairwise.imp_of_mem ?_ (hple.and hne)
      intro a b hma hmb hab
      exact cmpRef_lt_of_le_ne d a b (hmv b (hperm.subset hmb)) (hmv a (hperm.subset hma))
        hab.1 hab.2


def bugDoc : DTree :=
  .node [] [] [ .node ["a"] [] [ .node ["b"] [] [], .node [] [] [] ] ]

/-- C4: in the document `<E a="1"><F b="1"/><G/></E>` the comparator places
the attribute of E after E's child F (first conjunct), contradicting the
claim (and the source's own comment) that attributes come before the
element's children; moreover the comparisons attr(E) < attr(F) < G < attr(E)
form a cycle (remaining conjuncts), so the comparator is not a total order
on the document's nodes. -/
theorem cmp_attr_after_children :
    cmpRef bugDoc (.attr [0] 0) (.child [0, 0]) = 1
    ∧ cmpRef bugDoc (.attr [0] 0) (.attr [0, 0] 0) = -1
    ∧ cmpRef bugDoc (.attr [0, 0] 0) (.child [0, 1]) = -1
    ∧ cmpRef bugDoc (.child [0, 1]) (.attr [0] 0) = -1 := by
  refine ⟨?_, ?_, ?_, ?_⟩ <;> decide

def cxDoc : DTree := .node [] [] [.node [] [] [], .node [] [] []]

/-- Counterexample to C2: when the left operand value is empty, unionExpr
returns the right operand unchanged, so a node-set supplied through a
variable binding that is out of document order and contains a node twice is
returned as-is. -/
theorem union_passthrough_counterexample :
    unionEval cxDoc [] [.child [1], .child [0], .child [0]]
      = [.child [1], .child [0], .child [0]]
    ∧ ¬ docOrdered cxDoc (unionEval cxDoc [] [.child [1], .child [0], .child [0]])
    ∧ ¬ (unionEval cxDoc [] [.child [1], .child [0], .child [0]]).Nodup := by
  refine ⟨rfl, ?_, by decide⟩
  intro h
  unfold docOrdered at h
  have h1 := List.pairwise_cons.mp h
  have := h1.1 (.child [0]) (by simp)
  have hc : cmpRef cxDoc (.child [1]) (.child [0]) = 1 := by decide
  omega

/-- Witness for C2's amended theorem: singleton operands in a two-child
document. -/
theorem union_eval_ordered_witness :
    docOrdered cxDoc (unionEval cxDoc [NodeRef.child [0]] [NodeRef.child [1]])
    ∧ (unionEval cxDoc [NodeRef.child [0]] [NodeRef.child [1]]).Nodup :=
  union_eval_ordered cxDoc [NodeRef.child [0]] [NodeRef.child [1]]
    (by decide) (by decide) (by decide)
    (fun h => by simp at h) (fun h => by simp at h)
/-
### C5: axis pairing (iter.go)

Path model of the child-node axes.  A non-attr/non-ns node is a child path
in the `DTree`.  `preorderAux`/`preorderPaths` model the DFS of
`descendantOrSelfIter` (iter.go: the stack of child iterators yields each
element before its children, siblings left to right).  `ancestorOrSelf`
models `ancestorOrSelfIter` (repeated `Parent()` up to the document node,
self first).  `followingAux` models `followingIter.next` (iter.go lines
439-476): climb from the context node towards the document root and, at
each ancestor, emit the whole subtrees of the later siblings in document
order; descendants of the context node are never emitted.
-/

namespace Axes

def preorderAux : List DTree → List ℕ → ℕ → List (List ℕ)
  | [], _, _ => []
  | c :: rest, p, i =>
    ((p ++ [i]) :: preorderAux c.kids (p ++ [i]) 0) ++ preorderAux rest p (i + 1)
termination_by kids _ _ => sizeOf kids
decreasing_by
  all_goals try cases c
  all_goals simp [DTree.kids]
  all_goals omega

def preorderPaths (t : DTree) (p : List ℕ) : List (List ℕ) :=
  p :: preorderAux t.kids p 0

def descendantOrSelf (d : DTree) (p : List ℕ) : List (List ℕ) :=
  match subtreeAt d p with
  | some t => preorderPaths t p
  | none => []

def ancestorOrSelf : List ℕ → List (List ℕ)
  | [] => [[]]
  | x :: rest => (x :: rest) :: ancestorOrSelf (x :: rest).dropLast
termination_by p => p.length
decreasing_by
  simp only [List.length_dropLast, List.length_cons]
  omega

def followingAux (t : DTree) : List ℕ → List (List ℕ)
  | [] => []
  | i :: rest =>
    (match t.kids.get? i with
     | some c => (followingAux c rest).map (fun q => i :: q)
     | none => [])
    ++ (((t.kids.enum).drop (i + 1)).flatMap (fun x => preorderPaths x.2 [x.1]))

def following (d : DTree) (p : List ℕ) : List (List ℕ) := followingAux d p


theorem validChildPath_nil (t : DTree) : validChildPath t [] = true := by
  simp [validChildPath, subtreeAt]

theorem validChildPath_cons (t : DTree) (j : ℕ) (r : List ℕ) :
    validChildPath t (j :: r) = true
      ↔ ∃ c, t.kids.get? j = some c ∧ validChildPath c r = true := by
  unfold validChildPath
  rw [subtreeAt]
  cases h : t.kids.get? j with
  | none => simp
  | some c => simp

theorem mem_preorderAux (kids : List DTree) (p : List ℕ) (i : ℕ) :
    ∀ q, q ∈ preorderAux kids p i
      ↔ ∃ j c r, kids.get? j = some c ∧ q = p ++ (i + j) :: r
          ∧ validChildPath c r = true := by
  induction kids, p, i using preorderAux.induct with
  | case1 p i =>
    intro q
    simp [preorderAux]
  | case2 c rest p i ih1 ih2 =>
    intro q
    rw [preorderAux]
    simp only [List.mem_append, List.mem_cons]
    constructor
    · rintro ((rfl | hm) | hm)
      · refine ⟨0, c, [], by simp, by simp, validChildPath_nil c⟩
      · rcases (ih1 q).mp hm with ⟨j, c', r, hg, rfl, hv⟩
        refine ⟨0, c, j :: r, by simp, by simp, ?_⟩
        rw [validChildPath_cons]
        exact ⟨c', by simpa using hg, hv⟩
      · rcases (ih2 q).mp hm with ⟨j, c', r, hg, rfl, hv⟩
        refine ⟨j + 1, c', r, by simpa using hg, ?_, hv⟩
        have harith : i + 1 + j = i + (j + 1) := by omega
        rw [harith]
    · rintro ⟨j, c', r, hg, rfl, hv⟩
      cases j with
      | zero =>
        have hc : c' = c := by
          simp at hg
          exact hg.symm
        subst hc
        cases r with
        | nil =>
          left
          left
          simp
        | cons r0 rtail =>
          rcases (validChildPath_cons c' r0 rtail).mp hv with ⟨c0, hg0, hv0⟩
          left
          right
          refine (ih1 _).mpr ⟨r0, c0, rtail, hg0, by simp, hv0⟩
      | succ jp =>
        right
        refine (ih2 _).mpr ⟨jp, c', r, by simpa using hg, ?_, hv⟩
        have harith : i + (jp + 1) = i + 1 + jp := by omega
        rw [harith]

theorem mem_preorderPaths (t : DTree) (p : List ℕ) (q : List ℕ) :
    q ∈ preorderPaths t p ↔ ∃ r, q = p ++ r ∧ validChildPath t r = true := by
  rw [preorderPaths]
  simp only [List.mem_cons]
  constructor
  · rintro (rfl | hm)
    · exact ⟨[], by simp, validChildPath_nil t⟩
    · rcases (mem_preorderAux t.kids p 0 q).mp hm with ⟨j, c, r, hg, rfl, hv⟩
      refine ⟨(0 + j) :: r, rfl, ?_⟩
      rw [show (0 + j) = j by omega, validChildPath_cons]
      exact ⟨c, hg, hv⟩
  · rintro ⟨r, rfl, hv⟩
    cases r with
    | nil =>
      left
      simp
    | cons r0 rtail =>
      rcases (validChildPath_cons t r0 rtail).mp hv with ⟨c0, hg0, hv0⟩
      right
      exact (mem_preorderAux t.kids p 0 _).mpr ⟨r0, c0, rtail, hg0, by simp, hv0⟩


theorem valid_append_iff (d : DTree) (p r : List ℕ) :
    validChildPath d (p ++ r) = true
      ↔ ∃ t, subtreeAt d p = some t ∧ validChildPath t r = true := by
  unfold validChildPath
  rw [subtreeAt_append]
  cases h : subtreeAt d p with
  | none => simp
  | some t => simp [validChildPath]

theorem mem_descendantOrSelf (d : DTree) (p : List ℕ) (q : List ℕ)
    (hp : validChildPath d p = true) :
    q ∈ descendantOrSelf d p ↔ validChildPath d q = true ∧ p <+: q := by
  unfold descendantOrSelf
  unfold validChildPath at hp
  cases h : subtreeAt d p with
  | none =>
    rw [h] at hp
    simp at hp
  | some t =>
    rw [mem_preorderPaths]
    constructor
    · rintro ⟨r, rfl, hv⟩
      refine ⟨(valid_append_iff d p r).mpr ⟨t, h, hv⟩, List.prefix_append p r⟩
    · rintro ⟨hv, hpre⟩
      rcases hpre with ⟨r, rfl⟩
      rcases (valid_append_iff d p r).mp hv with ⟨t2, ht2, hv2⟩
      rw [h] at ht2
      exact ⟨r, rfl, by injection ht2 with he; rw [he]; exact hv2⟩

theorem prefix_iff_eq_or_dropLast (q : List ℕ) (x : ℕ) (rest : List ℕ) :
    q <+: (x :: rest) ↔ q = x :: rest ∨ q <+: (x :: rest).dropLast := by
  constructor
  · intro h
    by_cases heq : q = x :: rest
    · exact Or.inl heq
    · right
      have hlt : q.length < (x :: rest).length := by
        rcases lt_or_eq_of_le (List.IsPrefix.length_le h) with h2 | h2
        · exact h2
        · exact absurd (List.prefix_iff_eq_take.mp h ▸ (by rw [h2, List.take_length])) heq
      have hq : q = (x :: rest).take q.length := List.prefix_iff_eq_take.mp h
      have : (x :: rest).dropLast = (x :: rest).take ((x :: rest).length - 1) := by
        rw [List.dropLast_eq_take]
      rw [this, hq]
      have := List.take_prefix q.length ((x :: rest).take ((x :: rest).length - 1))
      rw [List.take_take] at this
      rw [show min q.length ((x :: rest).length - 1) = q.length by omega] at this
      exact this
  · rintro (rfl | h)
    · exact List.prefix_rfl
    · exact h.trans (List.dropLast_prefix _)

theorem mem_ancestorOrSelf (p q : List ℕ) :
    q ∈ ancestorOrSelf p ↔ q <+: p := by
  induction p using ancestorOrSelf.induct with
  | case1 =>
    rw [ancestorOrSelf]
    simp [List.prefix_nil]
  | case2 x rest ih =>
    rw [ancestorOrSelf]
    simp only [List.mem_cons, ih]
    exact (or_congr_left (by simp [eq_comm])).symm.trans (prefix_iff_eq_or_dropLast q x rest).symm


theorem enumFrom_drop (l : List DTree) (n k : ℕ) :
    (List.enumFrom n l).drop k = List.enumFrom (n + k) (l.drop k) := by
  induction k generalizing n l with
  | zero => simp
  | succ k ih =>
    cases l with
    | nil => simp
    | cons c t =>
      rw [List.enumFrom_cons, List.drop_succ_cons, List.drop_succ_cons, ih]
      congr 1
      omega

theorem mem_enumFrom_iff (l : List DTree) (n : ℕ) (x : ℕ × DTree) :
    x ∈ List.enumFrom n l ↔ n ≤ x.1 ∧ l.get? (x.1 - n) = some x.2 := by
  induction l generalizing n with
  | nil => simp
  | cons c t ih =>
    rw [List.enumFrom_cons]
    simp only [List.mem_cons, ih]
    constructor
    · rintro (rfl | ⟨h1, h2⟩)
      · simp
      · refine ⟨by omega, ?_⟩
        rw [show x.1 - n = (x.1 - (n + 1)) + 1 by omega]
        simpa using h2
    · rintro ⟨h1, h2⟩
      by_cases hx : x.1 = n
      · left
        rw [hx] at h2
        simp at h2
        obtain ⟨a, b⟩ := x
        simp at hx h2 ⊢
        exact ⟨hx, h2.symm⟩
      · right
        refine ⟨by omega, ?_⟩
        rw [show x.1 - n = (x.1 - (n + 1)) + 1 by omega] at h2
        simpa using h2

theorem mem_enum_drop (l : List DTree) (k : ℕ) (x : ℕ × DTree) :
    x ∈ (l.enum).drop k ↔ k ≤ x.1 ∧ l.get? x.1 = some x.2 := by
  have he : l.enum = List.enumFrom 0 l := rfl
  rw [he, enumFrom_drop, mem_enumFrom_iff]
  constructor
  · rintro ⟨h1, h2⟩
    rw [List.get?_drop] at h2
    rw [show k + (x.1 - (0 + k)) = x.1 by omega] at h2
    exact ⟨by omega, h2⟩
  · rintro ⟨h1, h2⟩
    refine ⟨by omega, ?_⟩
    rw [List.get?_drop, show k + (x.1 - (0 + k)) = x.1 by omega]
    exact h2


theorem mem_followingAux (t : DTree) (p : List ℕ) :
    ∀ q, q ∈ followingAux t p
      ↔ validChildPath t q = true
        ∧ ∃ r i j, (r ++ [i]) <+: p ∧ i < j ∧ (r ++ [j]) <+: q := by
  induction t, p using followingAux.induct with
  | case1 t =>
    intro q
    rw [followingAux]
    simp only [List.not_mem_nil, false_iff, not_and]
    intro _ hc
    rcases hc with ⟨r, i, j, hpre, _, _⟩
    have := hpre.length_le
    simp at this
  | case2 t i rest ih =>
    intro q
    rw [followingAux]
    rw [List.mem_append]
    constructor
    · rintro (hm | hm)
      · cases hg : t.kids.get? i with
        | none =>
          rw [hg] at hm
          simp at hm
        | some c =>
          rw [hg] at hm
          rcases List.mem_map.mp hm with ⟨q', hq', rfl⟩
          rcases (ih c q').mp hq' with ⟨hv, r, i0, j0, h1, h2, h3⟩
          refine ⟨?_, i :: r, i0, j0, ?_, h2, ?_⟩
          · rw [validChildPath_cons]
            exact ⟨c, hg, hv⟩
          · rw [List.cons_append, List.cons_prefix_cons]
            exact ⟨rfl, h1⟩
          · rw [List.cons_append, List.cons_prefix_cons]
            exact ⟨rfl, h3⟩
      · rcases List.mem_flatMap.mp hm with ⟨x, hx, hq⟩
        rcases (mem_enum_drop t.kids (i + 1) x).mp hx with ⟨hle, hget⟩
        rcases (mem_preorderPaths x.2 [x.1] q).mp hq with ⟨s, rfl, hv⟩
        refine ⟨?_, [], i, x.1, ?_, by omega, ?_⟩
        · rw [show ([x.1] ++ s) = x.1 :: s from rfl, validChildPath_cons]
          exact ⟨x.2, hget, hv⟩
        · simp [List.cons_prefix_cons]
        · exact List.prefix_append _ _
    · rintro ⟨hv, r, i0, j0, h1, h2, h3⟩
      cases r with
      | nil =>
        right
        have hi0 : i0 = i := (List.cons_prefix_cons.mp h1).1
        subst hi0
        rcases h3 with ⟨s, hs⟩
        rw [← hs] at hv ⊢
        rw [show ([] : List ℕ) ++ [j0] ++ s = j0 :: s from rfl] at hv ⊢
        rcases (validChildPath_cons t j0 s).mp hv with ⟨c', hg', hv'⟩
        apply List.mem_flatMap.mpr
        refine ⟨(j0, c'), (mem_enum_drop t.kids (i0 + 1) (j0, c')).mpr ⟨by omega, hg'⟩, ?_⟩
        exact (mem_preorderPaths c' [j0] _).mpr ⟨s, rfl, hv'⟩
      | cons rh rt =>
        left
        have hrh : rh = i ∧ (rt ++ [i0]) <+: rest := by
          rw [List.cons_append, List.cons_prefix_cons] at h1
          exact h1
        obtain ⟨rfl, h1s⟩ := hrh
        rcases h3 with ⟨s, hs⟩
        rw [← hs] at hv ⊢
        rw [show (rh :: rt) ++ [j0] ++ s = rh :: (rt ++ [j0] ++ s) by simp] at hv ⊢
        rcases (validChildPath_cons t rh _).mp hv with ⟨c, hg, hv2⟩
        rw [hg]
        apply List.mem_map.mpr
        refine ⟨rt ++ [j0] ++ s, ?_, rfl⟩
        apply (ih c _).mpr
        exact ⟨hv2, rt, i0, j0, h1s, h2, List.prefix_append _ _⟩


theorem pref_eq_of_length (p q l : List ℕ) (h1 : p <+: l) (h2 : q <+: l)
    (h : p.length = q.length) : p = q := by
  rw [List.prefix_iff_eq_take.mp h1, List.prefix_iff_eq_take.mp h2, h]

theorem snoc_pref_eq (r r' : List ℕ) (u v : ℕ) (hlen : r.length = r'.length)
    (heq : r ++ [u] = r' ++ [v]) : u = v := by
  have := List.append_inj heq hlen
  simpa using this.2

theorem div_witness (r : List ℕ) (x : ℕ) (s1 : List ℕ) (y : ℕ) (s2 : List ℕ)
    (r' : List ℕ) (u v : ℕ)
    (h1 : (r' ++ [u]) <+: (r ++ x :: s1)) (h2 : (r' ++ [v]) <+: (r ++ y :: s2)) :
    u = v ∨ (u = x ∧ v = y) ∨ x = y := by
  have hrx : (r ++ [x]) <+: (r ++ x :: s1) := by
    refine ⟨s1, by simp⟩
  have hry : (r ++ [y]) <+: (r ++ y :: s2) := by
    refine ⟨s2, by simp⟩
  have hra : r <+: (r ++ x :: s1) := List.prefix_append r _
  have hrb : r <+: (r ++ y :: s2) := List.prefix_append r _
  rcases Nat.lt_trichotomy r'.length r.length with hc | hc | hc
  · left
    have ha : (r' ++ [u]) <+: r :=
      List.prefix_of_prefix_length_le h1 hra (by simp; omega)
    have hb2 : (r' ++ [v]) <+: r :=
      List.prefix_of_prefix_length_le h2 hrb (by simp; omega)
    exact snoc_pref_eq r' r' u v rfl (pref_eq_of_length _ _ r ha hb2 (by simp))
  · right
    left
    have hu : (r' ++ [u]) <+: (r ++ [x]) :=
      List.prefix_of_prefix_length_le h1 (hrx.trans (List.prefix_refl _)) (by simp; omega)
    have hv : (r' ++ [v]) <+: (r ++ [y]) :=
      List.prefix_of_prefix_length_le h2 hry (by simp; omega)
    constructor
    · exact snoc_pref_eq r' r u x hc (pref_eq_of_length _ _ _ hu (List.prefix_refl _) (by simp [hc]))
    · exact snoc_pref_eq r' r v y hc (pref_eq_of_length _ _ _ hv (List.prefix_refl _) (by simp [hc]))
  · right
    right
    have hpr1 : r' <+: (r ++ x :: s1) := (List.prefix_append r' [u]).trans h1
    have hpr2 : r' <+: (r ++ y :: s2) := (List.prefix_append r' [v]).trans h2
    have hx2 : (r ++ [x]) <+: r' :=
      List.prefix_of_prefix_length_le hrx hpr1 (by simp; omega)
    have hy2 : (r ++ [y]) <+: r' :=
      List.prefix_of_prefix_length_le hry hpr2 (by simp; omega)
    exact snoc_pref_eq r r x y rfl (pref_eq_of_length _ _ r' hx2 hy2 (by simp))

theorem div_not_prefix (r : List ℕ) (x : ℕ) (s1 : List ℕ) (y : ℕ) (s2 : List ℕ)
    (hxy : x ≠ y) : ¬ (r ++ x :: s1) <+: (r ++ y :: s2) := by
  intro h
  have hrx : (r ++ [x]) <+: (r ++ x :: s1) := ⟨s1, by simp⟩
  have hry : (r ++ [y]) <+: (r ++ y :: s2) := ⟨s2, by simp⟩
  have hx2 : (r ++ [x]) <+: (r ++ y :: s2) := hrx.trans h
  exact hxy (snoc_pref_eq r r x y rfl (pref_eq_of_length _ _ _ hx2 hry (by simp)))


/-- C5: for any two distinct non-attribute, non-namespace nodes `a`, `b` of one
document, exactly one of the following holds: `a` is yielded by the following
axis of `b`, `b` is yielded by the following axis of `a`, or `a` lies in the
union of the ancestor-or-self and descendant-or-self axes of `b`. -/
theorem following_trichotomy (d : DTree) (a b : List ℕ)
    (ha : validChildPath d a = true) (hb : validChildPath d b = true) (hne : a ≠ b) :
    (a ∈ following d b ∧ ¬ b ∈ following d a
        ∧ ¬ (a ∈ ancestorOrSelf b ∨ a ∈ descendantOrSelf d b))
    ∨ (¬ a ∈ following d b ∧ b ∈ following d a
        ∧ ¬ (a ∈ ancestorOrSelf b ∨ a ∈ descendantOrSelf d b))
    ∨ (¬ a ∈ following d b ∧ ¬ b ∈ following d a
        ∧ (a ∈ ancestorOrSelf b ∨ a ∈ descendantOrSelf d b)) := by
  have hX : a ∈ following d b ↔ validChildPath d a = true
      ∧ ∃ r i j, (r ++ [i]) <+: b ∧ i < j ∧ (r ++ [j]) <+: a := mem_followingAux d b a
  have hY : b ∈ following d a ↔ validChildPath d b = true
      ∧ ∃ r i j, (r ++ [i]) <+: a ∧ i < j ∧ (r ++ [j]) <+: b := mem_followingAux d a b
  have hAnc : a ∈ ancestorOrSelf b ↔ a <+: b := mem_ancestorOrSelf b a
  have hDesc : a ∈ descendantOrSelf d b ↔ validChildPath d a = true ∧ b <+: a :=
    mem_descendantOrSelf d b a hb
  rcases path_trichotomy a b with h | ⟨s, hs, rfl⟩ | ⟨s, hs, rfl⟩
      | ⟨r, i, j, s1, s2, hij, rfl, rfl⟩
  · exact absurd h hne
  · refine Or.inr (Or.inr ⟨?_, ?_, Or.inl (hAnc.mpr ⟨s, rfl⟩)⟩)
    · rw [hX]
      rintro ⟨_, r, i, j, h1, h2, h3⟩
      have h3b : (r ++ [j]) <+: (a ++ s) := h3.trans ⟨s, rfl⟩
      have := snoc_pref_eq r r i j rfl (pref_eq_of_length _ _ _ h1 h3b (by simp))
      omega
    · rw [hY]
      rintro ⟨_, r, i, j, h1, h2, h3⟩
      have h1b : (r ++ [i]) <+: (a ++ s) := h1.trans ⟨s, rfl⟩
      have := snoc_pref_eq r r i j rfl (pref_eq_of_length _ _ _ h1b h3 (by simp))
      omega
  · refine Or.inr (Or.inr ⟨?_, ?_, Or.inr (hDesc.mpr ⟨ha, ⟨s, rfl⟩⟩)⟩)
    · rw [hX]
      rintro ⟨_, r, i, j, h1, h2, h3⟩
      have h1b : (r ++ [i]) <+: (b ++ s) := h1.trans ⟨s, rfl⟩
      have := snoc_pref_eq r r i j rfl (pref_eq_of_length _ _ _ h1b h3 (by simp))
      omega
    · rw [hY]
      rintro ⟨_, r, i, j, h1, h2, h3⟩
      have h3b : (r ++ [j]) <+: (b ++ s) := h3.trans ⟨s, rfl⟩
      have := snoc_pref_eq r r i j rfl (pref_eq_of_length _ _ _ h1 h3b (by simp))
      omega
  · have hnp1 : ¬ (r ++ i :: s1) <+: (r ++ j :: s2) := div_not_prefix r i s1 j s2 hij
    have hnp2 : ¬ (r ++ j :: s2) <+: (r ++ i :: s1) :=
      div_not_prefix r j s2 i s1 (Ne.symm hij)
    rcases Nat.lt_or_ge i j with hlt | hge
    · refine Or.inr (Or.inl ⟨?_, ?_, ?_⟩)
      · rw [hX]
        rintro ⟨_, r', u, v, h1, h2, h3⟩
        rcases div_witness r j s2 i s1 r' u v h1 h3 with h | ⟨h4, h5⟩ | h
        · omega
        · omega
        · exact hij h.symm
      · rw [hY]
        exact ⟨hb, r, i, j, ⟨s1, by simp⟩, hlt, ⟨s2, by simp⟩⟩
      · rintro (hz | hz)
        · exact hnp1 (hAnc.mp hz)
        · exact hnp2 (hDesc.mp hz).2
    · have hlt2 : j < i := lt_of_le_of_ne hge (Ne.symm hij)
      refine Or.inl ⟨?_, ?_, ?_⟩
      · rw [hX]
        exact ⟨ha, r, j, i, ⟨s2, by simp⟩, hlt2, ⟨s1, by simp⟩⟩
      · rw [hY]
        rintro ⟨_, r', u, v, h1, h2, h3⟩
        rcases div_witness r i s1 j s2 r' u v h1 h3 with h | ⟨h4, h5⟩ | h
        · omega
        · omega
        · exact hij h
      · rintro (hz | hz)
        · exact hnp1 (hAnc.mp hz)
        · exact hnp2 (hDesc.mp hz).2


def axDoc : DTree := .node [] [] [.node [] [] [.node [] [] []], .node [] [] []]

theorem following_trichotomy_witness :
    validChildPath axDoc [0] = true ∧ validChildPath axDoc [1] = true
      ∧ ([0] : List ℕ) ≠ [1]
      ∧ (( [0] ∈ following axDoc [1] ∧ ¬ [1] ∈ following axDoc [0]
            ∧ ¬ ([0] ∈ ancestorOrSelf [1] ∨ [0] ∈ descendantOrSelf axDoc [1]))
        ∨ (¬ [0] ∈ following axDoc [1] ∧ [1] ∈ following axDoc [0]
            ∧ ¬ ([0] ∈ ancestorOrSelf [1] ∨ [0] ∈ descendantOrSelf axDoc [1]))
        ∨ (¬ [0] ∈ following axDoc [1] ∧ ¬ [1] ∈ following axDoc [0]
            ∧ ([0] ∈ ancestorOrSelf [1] ∨ [0] ∈ descendantOrSelf axDoc [1]))) :=
  ⟨rfl, rfl, by decide, following_trichotomy axDoc [0] [1] rfl rfl (by decide)⟩

end Axes

end DocOrder

namespace Simp

/-
### C1: compile-time simplification (compiler.go `Simplify`, part_007/part_008)

The expression fragment relevant to the claim is embedded as an inductive.
A node is abstracted by its string-value (`Node2String` is the only way the
fragment inspects a node).  The `apply` fields of `arithmeticExpr`,
`equalityExpr` and `relationalExpr`, and the `impl` field of `funcCall`,
are function fields in the Go structs and are embedded as function fields
here.  The numeric conversions of the Go standard library
(`strconv.ParseFloat` in `String2Number`, `strconv.FormatFloat`/`Itoa` in
`Value2String`) are parameters `S2N`/`FMT` of the development: every
theorem below holds for an arbitrary parser and formatter, so nothing
depends on their exact behaviour.  Go's `variable` struct is named `varRef`
(`variable` is a Lean keyword).  Panics (nil-context dereference, failed
type assertions, `Value2Expr` on a node-set) become `none`.
-/

/-- An xpath value (`interface{}` restricted to the four valid kinds):
`[]dom.Node` (each node by string-value), `string`, `float64`, `bool`. -/
inductive Value where
  | nodes (ns : List String)
  | str (s : String)
  | num (x : XFloat)
  | bool (b : Bool)

/-- TypeOf (order.go line 169) on the four valid kinds. -/
def kindOf : Value → DataType
  | .nodes _ => .nodeSet
  | .str _ => .string
  | .num _ => .number
  | .bool _ => .boolean

/-- Evaluation context (Context struct): current node (by string-value),
1-based position, size, and the variable bindings (`Vars` may be nil). -/
structure Ctx where
  node : String
  pos : ℚ
  size : ℚ
  vars : Option (String → Option Value)

/-- The compiled expression fragment under study.  Constructors mirror the
Go structs: literal wrappers, `ContextExpr`, `negateExpr`, the four binary
expression kinds, `variable` (here `varRef`), `funcCall`, the three
conversion functions, and the context-dependent `position`/`last`. -/
inductive Expr where
  | stringVal (s : String)
  | numberVal (x : XFloat)
  | booleanVal (b : Bool)
  | contextExpr
  | negateExpr (arg : Expr)
  | arithmeticExpr (apply : XFloat → XFloat → XFloat) (lhs rhs : Expr)
  | equalityExpr (apply : Value → Value → Bool) (lhs rhs : Expr)
  | relationalExpr (apply : XFloat → XFloat → Bool) (lhs rhs : Expr)
  | logicalExpr (skipValue : Bool) (lhs rhs : Expr)
  | varRef (name : String) (returns : DataType)
  | funcCall (returns : DataType) (impl : List Value → Value) (args : List Expr)
  | numberFunc (arg : Expr)
  | booleanFunc (arg : Expr)
  | stringFunc (arg : Expr)
  | position
  | last

/-- The `Returns()` method of each expression struct. -/
def Expr.returns : Expr → DataType
  | .stringVal _ => .string
  | .numberVal _ => .number
  | .booleanVal _ => .boolean
  | .contextExpr => .nodeSet
  | .negateExpr _ => .number
  | .arithmeticExpr _ _ _ => .number
  | .equalityExpr _ _ _ => .boolean
  | .relationalExpr _ _ _ => .boolean
  | .logicalExpr _ _ _ => .boolean
  | .varRef _ dt => dt
  | .funcCall dt _ _ => dt
  | .numberFunc _ => .number
  | .booleanFunc _ => .boolean
  | .stringFunc _ => .string
  | .position => .number
  | .last => .number

/-- `Literals` (compiler.go line 325) on a single expression: true exactly
on the three literal wrappers.  (The Go version also accepts nil; the
embedded expressions are never nil.) -/
def isLit : Expr → Bool
  | .stringVal _ => true
  | .numberVal _ => true
  | .booleanVal _ => true
  | _ => false

variable (FMT : ℚ → String) (S2N : String → XFloat)

/-- The float64 arm of Value2String (order.go line 197): the three special
values print as "NaN"/"Infinity"/"-Infinity"; finite values go through
strconv formatting, the parameter `FMT`. -/
def floatToStr : XFloat → String
  | .nan => "NaN"
  | .inf true => "Infinity"
  | .inf false => "-Infinity"
  | .fin q => FMT q

/-- Value2String (order.go line 189).  A node-set prints as the string-value
of its first node ("" when empty); nodes are modelled by their string-value. -/
def value2String : Value → String
  | .nodes ns => ns.headD ""
  | .str s => s
  | .num x => floatToStr FMT x
  | .bool b => if b then "true" else "false"

/-- Value2Number (order.go line 221).  Strings (and node string-values) go
through `String2Number`, the parameter `S2N`. -/
def value2Number : Value → XFloat
  | .nodes ns => S2N (ns.headD "")
  | .str s => S2N s
  | .num x => x
  | .bool b => .fin (if b then 1 else 0)

/-- Value2Boolean (order.go line 242): a number is true unless it is 0 or
NaN; a string or node-set is true iff non-empty. -/
def value2Boolean : Value → Bool
  | .nodes ns => !ns.isEmpty
  | .str s => decide (0 < s.length)
  | .num .nan => false
  | .num (.inf _) => true
  | .num (.fin q) => decide (q ≠ 0)
  | .bool b => b

/-- Value2Expr (order.go line 258): literal expression for a primitive
value; panics (`none`) on a node-set. -/
def value2Expr : Value → Option Expr
  | .nodes _ => none
  | .str s => some (.stringVal s)
  | .num x => some (.numberVal x)
  | .bool b => some (.booleanVal b)

/-- Node2Number (order.go line 295): `String2Number(Node2String(n))`; a
node is modelled by its string-value. -/
def node2Number (n : String) : XFloat := S2N n

/-- Go interface comparison `v == skipValue` of an xpath value against a
bool (logicalExpr.Eval): equal only when the dynamic type is bool. -/
def valEqBool : Value → Bool → Bool
  | .bool b, s => b == s
  | _, _ => false

/-- equalityExpr.Eval (part_007 lines 119-172) after both operands have
been evaluated.  Node-set versus node-set: some pair of string-values
satisfies `apply`.  Primitive versus primitive: convert both to boolean if
either is boolean, else to number if either is number, else to string.
Mixed: a boolean compares against the node-set's boolean; a string
compares against each node's string-value; a number against each node's
number-value. -/
def equalityEval (ap : Value → Value → Bool) (lv rv : Value) : Bool :=
  match lv, rv with
  | .nodes l, .nodes r => l.any fun n1 => r.any fun n2 => ap (.str n1) (.str n2)
  | .nodes l, rv =>
    match rv with
    | .bool b => ap (.bool b) (.bool (value2Boolean (.nodes l)))
    | .str s => l.any fun n => ap (.str s) (.str n)
    | rv => l.any fun n => ap rv (.num (node2Number S2N n))
  | lv, .nodes r =>
    match lv with
    | .bool b => ap (.bool b) (.bool (value2Boolean (.nodes r)))
    | .str s => r.any fun n => ap (.str s) (.str n)
    | lv => r.any fun n => ap lv (.num (node2Number S2N n))
  | lv, rv =>
    if kindOf lv = .boolean ∨ kindOf rv = .boolean then
      ap (.bool (value2Boolean lv)) (.bool (value2Boolean rv))
    else if kindOf lv = .number ∨ kindOf rv = .number then
      ap (.num (value2Number S2N lv)) (.num (value2Number S2N rv))
    else
      ap (.str (value2String FMT lv)) (.str (value2String FMT rv))

/-- relationalExpr.Eval (part_007 lines 194-233) after both operands have
been evaluated.  A NaN on the single-value side short-circuits to false. -/
def relationalEval (ap : XFloat → XFloat → Bool) (lv rv : Value) : Bool :=
  match lv, rv with
  | .nodes l, .nodes r =>
    l.any fun n1 =>
      let x := node2Number S2N n1
      !x.isNaN && r.any fun n2 => ap x (node2Number S2N n2)
  | .nodes l, rv =>
    let x := value2Number S2N rv
    !x.isNaN && l.any fun n => ap (node2Number S2N n) x
  | lv, .nodes r =>
    let x := value2Number S2N lv
    !x.isNaN && r.any fun n => ap x (node2Number S2N n)
  | lv, rv => ap (value2Number S2N lv) (value2Number S2N rv)

/-- Go float64 negation on the model (negateExpr.Eval's `-...`).  (The
model has no signed zero; `-0.0` is identified with `0.0`.) -/
def xneg : XFloat → XFloat
  | .nan => .nan
  | .inf b => .inf !b
  | .fin q => .fin (-q)

mutual

/-- The `Eval(ctx)` methods of the fragment (part_007/part_008), with
`none` for a panic: dereferencing a nil context, a failed `.(float64)`
type assertion, or a variable error. -/
def eval : Expr → Option Ctx → Option Value
  | .stringVal s, _ => some (.str s)
  | .numberVal x, _ => some (.num x)
  | .booleanVal b, _ => some (.bool b)
  | .contextExpr, octx => octx.map fun c => .nodes [c.node]
  | .negateExpr a, octx =>
    (eval a octx).bind fun v =>
      match v with
      | .num x => some (.num (xneg x))
      | _ => none
  | .arithmeticExpr ap l r, octx =>
    (eval l octx).bind fun lv =>
      (eval r octx).bind fun rv =>
        match lv, rv with
        | .num x, .num y => some (.num (ap x y))
        | _, _ => none
  | .equalityExpr ap l r, octx =>
    (eval l octx).bind fun lv =>
      (eval r octx).bind fun rv => some (.bool (equalityEval FMT S2N ap lv rv))
  | .relationalExpr ap l r, octx =>
    (eval l octx).bind fun lv =>
      (eval r octx).bind fun rv => some (.bool (relationalEval S2N ap lv rv))
  | .logicalExpr skip l r, octx =>
    (eval l octx).bind fun lv =>
      if valEqBool lv skip then some (.bool skip) else eval r octx
  | .varRef name dt, octx =>
    octx.bind fun c =>
      (c.vars.bind fun f => f name).bind fun r =>
        if dt = DataType.nodeSet ∧ kindOf r ≠ DataType.nodeSet then none
        else some r
  | .funcCall _ impl args, octx => (evalList args octx).map impl
  | .numberFunc a, octx => (eval a octx).map fun v => .num (value2Number S2N v)
  | .booleanFunc a, octx => (eval a octx).map fun v => .bool (value2Boolean v)
  | .stringFunc a, octx => (eval a octx).map fun v => .str (value2String FMT v)
  | .position, octx => octx.map fun c => .num (.fin c.pos)
  | .last, octx => octx.map fun c => .num (.fin c.size)
termination_by e _ => sizeOf e

/-- Evaluation of a funcCall's argument list, left to right. -/
def evalList : List Expr → Option Ctx → Option (List Value)
  | [], _ => some []
  | a :: as, octx =>
    (eval a octx).bind fun v => (evalList as octx).bind fun vs => some (v :: vs)
termination_by l _ => sizeOf l

end

mutual

/-- `Simplify` (compiler.go line 312) together with the `Simplify()`
methods of the fragment.  An expression kind that implements no
`Simplify()` method — in this fragment the literals, `ContextExpr`,
`negateExpr`, `variable`, `position` and `last` — is returned unchanged
(its children are not walked).  The folding kinds first simplify their
children and, when the children are all literal, evaluate themselves in a
nil context and wrap the result with `Value2Expr`; `none` is a panic
(`Value2Expr` on a node-set, or a failed type assertion in `Eval(nil)`). -/
def simplify : Expr → Option Expr
  | .stringVal s => some (.stringVal s)
  | .numberVal x => some (.numberVal x)
  | .booleanVal b => some (.booleanVal b)
  | .contextExpr => some .contextExpr
  | .negateExpr a => some (.negateExpr a)
  | .arithmeticExpr ap l r =>
    (simplify l).bind fun l2 =>
      (simplify r).bind fun r2 =>
        if isLit l2 && isLit r2 then
          (eval FMT S2N (.arithmeticExpr ap l2 r2) none).bind value2Expr
        else some (.arithmeticExpr ap l2 r2)
  | .equalityExpr ap l r =>
    (simplify l).bind fun l2 =>
      (simplify r).bind fun r2 =>
        if isLit l2 && isLit r2 then
          (eval FMT S2N (.equalityExpr ap l2 r2) none).bind value2Expr
        else some (.equalityExpr ap l2 r2)
  | .relationalExpr ap l r =>
    (simplify l).bind fun l2 =>
      (simplify r).bind fun r2 =>
        if isLit l2 && isLit r2 then
          (eval FMT S2N (.relationalExpr ap l2 r2) none).bind value2Expr
        else some (.relationalExpr ap l2 r2)
  | .logicalExpr skip l r =>
    (simplify l).bind fun l2 =>
      (simplify r).bind fun r2 =>
        if isLit l2 then
          (eval FMT S2N l2 none).map fun lv =>
            if valEqBool lv skip then .booleanVal skip else r2
        else if isLit r2 then
          (eval FMT S2N r2 none).map fun rv =>
            if valEqBool rv skip then .booleanVal skip else l2
        else some (.logicalExpr skip l2 r2)
  | .varRef name dt => some (.varRef name dt)
  | .funcCall dt impl args =>
    (simplifyList args).bind fun args2 =>
      if args2.all isLit then
        (eval FMT S2N (.funcCall dt impl args2) none).bind value2Expr
      else some (.funcCall dt impl args2)
  | .numberFunc a =>
    (simplify a).bind fun a2 =>
      if isLit a2 then (eval FMT S2N (.numberFunc a2) none).bind value2Expr
      else some (.numberFunc a2)
  | .booleanFunc a =>
    (simplify a).bind fun a2 =>
      if isLit a2 then (eval FMT S2N (.booleanFunc a2) none).bind value2Expr
      else some (.booleanFunc a2)
  | .stringFunc a =>
    (simplify a).bind fun a2 =>
      if isLit a2 then (eval FMT S2N (.stringFunc a2) none).bind value2Expr
      else some (.stringFunc a2)
  | .position => some .position
  | .last => some .last
termination_by e => sizeOf e

/-- funcCall.Simplify's loop over the argument slice. -/
def simplifyList : List Expr → Option (List Expr)
  | [] => some []
  | a :: as =>
    (simplify a).bind fun a2 => (simplifyList as).bind fun as2 => some (a2 :: as2)
termination_by l => sizeOf l

end

mutual

/-- The claim's precondition on `E`: no variable references, no location
paths (absent from the fragment), and no context-dependent expressions
(`ContextExpr`, `position()`, `last()`). -/
def contextFree : Expr → Bool
  | .stringVal _ => true
  | .numberVal _ => true
  | .booleanVal _ => true
  | .contextExpr => false
  | .negateExpr a => contextFree a
  | .arithmeticExpr _ l r => contextFree l && contextFree r
  | .equalityExpr _ l r => contextFree l && contextFree r
  | .relationalExpr _ l r => contextFree l && contextFree r
  | .logicalExpr _ l r => contextFree l && contextFree r
  | .varRef _ _ => false
  | .funcCall _ _ args => contextFreeList args
  | .numberFunc a => contextFree a
  | .booleanFunc a => contextFree a
  | .stringFunc a => contextFree a
  | .position => false
  | .last => false
termination_by e => sizeOf e

def contextFreeList : List Expr → Bool
  | [] => true
  | a :: as => contextFree a && contextFreeList as
termination_by l => sizeOf l

end

mutual

/-- Invariants the compiler establishes on the expressions it builds
(compiler.go): operands of `negateExpr` and `arithmeticExpr` are wrapped
with `asNumber`, operands of `logicalExpr` with `asBoolean`, so their
static types are Number resp. Boolean; a `funcCall`'s `impl` returns a
value of its declared primitive kind (a function whose `impl` produced a
node-set from literal arguments would make `Value2Expr` panic — the node-set
producing expressions of the engine are location paths, which the claim
excludes). -/
def WT : Expr → Prop
  | .stringVal _ => True
  | .numberVal _ => True
  | .booleanVal _ => True
  | .contextExpr => True
  | .negateExpr a => a.returns = .number ∧ WT a
  | .arithmeticExpr _ l r =>
    l.returns = .number ∧ r.returns = .number ∧ WT l ∧ WT r
  | .equalityExpr _ l r => WT l ∧ WT r
  | .relationalExpr _ l r => WT l ∧ WT r
  | .logicalExpr _ l r =>
    l.returns = .boolean ∧ r.returns = .boolean ∧ WT l ∧ WT r
  | .varRef _ _ => True
  | .funcCall dt impl args =>
    (dt = .string ∨ dt = .number ∨ dt = .boolean)
      ∧ (∀ vals, kindOf (impl vals) = dt) ∧ WTList args
  | .numberFunc a => WT a
  | .booleanFunc a => WT a
  | .stringFunc a => WT a
  | .position => True
  | .last => True
termination_by e => sizeOf e

def WTList : List Expr → Prop
  | [] => True
  | a :: as => WT a ∧ WTList as
termination_by l => sizeOf l

end

mutual

/-- The claim's folding property on a simplified expression, amended with
the one exception found in the source: every sub-expression whose direct
children are all literal is itself literal — except `negateExpr`, which
implements no `Simplify()` method, so a negation is returned unchanged and
its subtree is not walked at all. -/
def Folded : Expr → Prop
  | .stringVal _ => True
  | .numberVal _ => True
  | .booleanVal _ => True
  | .contextExpr => True
  | .negateExpr _ => True
  | .arithmeticExpr _ l r =>
    Folded l ∧ Folded r ∧ ¬(isLit l = true ∧ isLit r = true)
  | .equalityExpr _ l r =>
    Folded l ∧ Folded r ∧ ¬(isLit l = true ∧ isLit r = true)
  | .relationalExpr _ l r =>
    Folded l ∧ Folded r ∧ ¬(isLit l = true ∧ isLit r = true)
  | .logicalExpr _ l r =>
    Folded l ∧ Folded r ∧ isLit l = false ∧ isLit r = false
  | .varRef _ _ => True
  | .funcCall _ _ args => FoldedList args ∧ args.all isLit = false
  | .numberFunc a => Folded a ∧ isLit a = false
  | .booleanFunc a => Folded a ∧ isLit a = false
  | .stringFunc a => Folded a ∧ isLit a = false
  | .position => True
  | .last => True
termination_by e => sizeOf e

def FoldedList : List Expr → Prop
  | [] => True
  | a :: as => Folded a ∧ FoldedList as
termination_by l => sizeOf l

end


/-- The value shapes forced by a static type: a Number-typed expression
evaluates to a float, a Boolean-typed one to a bool. -/
def kindOK (v : Value) (dt : DataType) : Prop :=
  (dt = .number → ∃ x, v = .num x) ∧ (dt = .boolean → ∃ b, v = .bool b)

theorem kindOf_string {v : Value} (h : kindOf v = .string) : ∃ s, v = .str s := by
  cases v <;> simp_all [kindOf]

theorem kindOf_number {v : Value} (h : kindOf v = .number) : ∃ x, v = .num x := by
  cases v <;> simp_all [kindOf]

theorem kindOf_boolean {v : Value} (h : kindOf v = .boolean) : ∃ b, v = .bool b := by
  cases v <;> simp_all [kindOf]

/-- What the simplifier guarantees for one expression: simplification
succeeds, preserves the static type, well-typedness, context-freeness,
establishes the folding property, and both the original and the simplified
expression evaluate to one context-independent value of the right shape. -/
def GoodFor (e e2 : Expr) (v : Value) : Prop :=
  Expr.returns e2 = Expr.returns e ∧ WT e2 ∧ contextFree e2 = true ∧ Folded e2
    ∧ (∀ octx, eval FMT S2N e octx = some v)
    ∧ (∀ octx, eval FMT S2N e2 octx = some v)
    ∧ kindOK v (Expr.returns e)

def Good (e : Expr) : Prop :=
  ∃ e2 v, simplify FMT S2N e = some e2 ∧ GoodFor FMT S2N e e2 v

def GoodList (args : List Expr) : Prop :=
  ∃ args2 vals, simplifyList FMT S2N args = some args2
    ∧ WTList args2 ∧ contextFreeList args2 = true ∧ FoldedList args2
    ∧ (∀ octx, evalList FMT S2N args octx = some vals)
    ∧ (∀ octx, evalList FMT S2N args2 octx = some vals)

theorem goodLit {e : Expr} (h : isLit e = true) : Good FMT S2N e := by
  cases e <;> simp [isLit] at h
  case stringVal s =>
    refine ⟨.stringVal s, .str s, by simp [simplify], rfl, by simp [WT],
      by simp [contextFree], by simp [Folded], fun octx => by simp [eval],
      fun octx => by simp [eval], ?_⟩
    refine ⟨fun h2 => ?_, fun h2 => ?_⟩ <;> simp [Expr.returns] at h2
  case numberVal x =>
    exact ⟨.numberVal x, .num x, by simp [simplify], rfl, by simp [WT],
      by simp [contextFree], by simp [Folded], fun octx => by simp [eval],
      fun octx => by simp [eval],
      ⟨fun _ => ⟨x, rfl⟩, fun h2 => by simp [Expr.returns] at h2⟩⟩
  case booleanVal b =>
    exact ⟨.booleanVal b, .bool b, by simp [simplify], rfl, by simp [WT],
      by simp [contextFree], by simp [Folded], fun octx => by simp [eval],
      fun octx => by simp [eval],
      ⟨fun h2 => by simp [Expr.returns] at h2, fun _ => ⟨b, rfl⟩⟩⟩


theorem goodNegate {a : Expr} {va : Value}
    (hra : a.returns = .number) (hwa : WT a) (hca : contextFree a = true)
    (hea : ∀ octx, eval FMT S2N a octx = some va) (hka : kindOK va a.returns) :
    Good FMT S2N (.negateExpr a) := by
  obtain ⟨x, rfl⟩ := hka.1 hra
  refine ⟨.negateExpr a, .num (xneg x), by simp [simplify], rfl, ?_, ?_,
    by simp [Folded], ?_, ?_, ?_⟩
  · simp only [WT]
    exact ⟨hra, hwa⟩
  · simpa [contextFree] using hca
  · intro octx
    simp [eval, hea octx]
  · intro octx
    simp [eval, hea octx]
  · exact ⟨fun _ => ⟨_, rfl⟩, fun h2 => by simp [Expr.returns] at h2⟩

theorem goodArith {l r l2 r2 : Expr} {vl vr : Value}
    (ap : XFloat → XFloat → XFloat)
    (hrl : l.returns = .number) (hrr : r.returns = .number)
    (hsl : simplify FMT S2N l = some l2) (hgl : GoodFor FMT S2N l l2 vl)
    (hsr : simplify FMT S2N r = some r2) (hgr : GoodFor FMT S2N r r2 vr) :
    Good FMT S2N (.arithmeticExpr ap l r) := by
  obtain ⟨hrl2, hwl2, hcl2, hfl2, hel, hel2, hkl⟩ := hgl
  obtain ⟨hrr2, hwr2, hcr2, hfr2, her, her2, hkr⟩ := hgr
  obtain ⟨x, rfl⟩ := hkl.1 hrl
  obtain ⟨y, rfl⟩ := hkr.1 hrr
  have hevO : ∀ octx, eval FMT S2N (.arithmeticExpr ap l r) octx
      = some (.num (ap x y)) := by
    intro octx
    simp [eval, hel octx, her octx]
  have hevS : ∀ octx, eval FMT S2N (.arithmeticExpr ap l2 r2) octx
      = some (.num (ap x y)) := by
    intro octx
    simp [eval, hel2 octx, her2 octx]
  by_cases hb : isLit l2 = true ∧ isLit r2 = true
  · refine ⟨.numberVal (ap x y), .num (ap x y), ?_, rfl, by simp [WT],
      by simp [contextFree], by simp [Folded], hevO, fun octx => by simp [eval],
      ⟨fun _ => ⟨_, rfl⟩, fun h2 => by simp [Expr.returns] at h2⟩⟩
    simp [simplify, hsl, hsr, hb.1, hb.2, hevS none, value2Expr]
  · have hfalse : (isLit l2 && isLit r2) = false := by
      cases h1 : isLit l2 <;> cases h2 : isLit r2 <;> simp_all
    refine ⟨.arithmeticExpr ap l2 r2, .num (ap x y), ?_, rfl, ?_, ?_, ?_, hevO, hevS,
      ⟨fun _ => ⟨_, rfl⟩, fun h2 => by simp [Expr.returns] at h2⟩⟩
    · simp [simplify, hsl, hsr, hb]
    · simp only [WT]
      exact ⟨hrl2.trans hrl, hrr2.trans hrr, hwl2, hwr2⟩
    · simp [contextFree, hcl2, hcr2]
    · simp only [Folded]
      exact ⟨hfl2, hfr2, hb⟩

theorem goodEquality {l r l2 r2 : Expr} {vl vr : Value}
    (ap : Value → Value → Bool)
    (hsl : simplify FMT S2N l = some l2) (hgl : GoodFor FMT S2N l l2 vl)
    (hsr : simplify FMT S2N r = some r2) (hgr : GoodFor FMT S2N r r2 vr) :
    Good FMT S2N (.equalityExpr ap l r) := by
  obtain ⟨hrl2, hwl2, hcl2, hfl2, hel, hel2, hkl⟩ := hgl
  obtain ⟨hrr2, hwr2, hcr2, hfr2, her, her2, hkr⟩ := hgr
  have hevO : ∀ octx, eval FMT S2N (.equalityExpr ap l r) octx
      = some (.bool (equalityEval FMT S2N ap vl vr)) := by
    intro octx
    simp [eval, hel octx, her octx]
  have hevS : ∀ octx, eval FMT S2N (.equalityExpr ap l2 r2) octx
      = some (.bool (equalityEval FMT S2N ap vl vr)) := by
    intro octx
    simp [eval, hel2 octx, her2 octx]
  by_cases hb : isLit l2 = true ∧ isLit r2 = true
  · refine ⟨.booleanVal (equalityEval FMT S2N ap vl vr), .bool (equalityEval FMT S2N ap vl vr),
      ?_, rfl, by simp [WT], by simp [contextFree], by simp [Folded], hevO,
      fun octx => by simp [eval],
      ⟨fun h2 => by simp [Expr.returns] at h2, fun _ => ⟨_, rfl⟩⟩⟩
    simp [simplify, hsl, hsr, hb.1, hb.2, hevS none, value2Expr]
  · have hfalse : (isLit l2 && isLit r2) = false := by
      cases h1 : isLit l2 <;> cases h2 : isLit r2 <;> simp_all
    refine ⟨.equalityExpr ap l2 r2, .bool (equalityEval FMT S2N ap vl vr), ?_, rfl,
      ?_, ?_, ?_, hevO, hevS,
      ⟨fun h2 => by simp [Expr.returns] at h2, fun _ => ⟨_, rfl⟩⟩⟩
    · simp [simplify, hsl, hsr, hb]
    · simp only [WT]
      exact ⟨hwl2, hwr2⟩
    · simp [contextFree, hcl2, hcr2]
    · simp only [Folded]
      exact ⟨hfl2, hfr2, hb⟩

theorem goodRelational {l r l2 r2 : Expr} {vl vr : Value}
    (ap : XFloat → XFloat → Bool)
    (hsl : simplify FMT S2N l = some l2) (hgl : GoodFor FMT S2N l l2 vl)
    (hsr : simplify FMT S2N r = some r2) (hgr : GoodFor FMT S2N r r2 vr) :
    Good FMT S2N (.relationalExpr ap l r) := by
  obtain ⟨hrl2, hwl2, hcl2, hfl2, hel, hel2, hkl⟩ := hgl
  obtain ⟨hrr2, hwr2, hcr2, hfr2, her, her2, hkr⟩ := hgr
  have hevO : ∀ octx, eval FMT S2N (.relationalExpr ap l r) octx
      = some (.bool (relationalEval S2N ap vl vr)) := by
    intro octx
    simp [eval, hel octx, her octx]
  have hevS : ∀ octx, eval FMT S2N (.relationalExpr ap l2 r2) octx
      = some (.bool (relationalEval S2N ap vl vr)) := by
    intro octx
    simp [eval, hel2 octx, her2 octx]
  by_cases hb : isLit l2 = true ∧ isLit r2 = true
  · refine ⟨.booleanVal (relationalEval S2N ap vl vr), .bool (relationalEval S2N ap vl vr),
      ?_, rfl, by simp [WT], by simp [contextFree], by simp [Folded], hevO,
      fun octx => by simp [eval],
      ⟨fun h2 => by simp [Expr.returns] at h2, fun _ => ⟨_, rfl⟩⟩⟩
    simp [simplify, hsl, hsr, hb.1, hb.2, hevS none, value2Expr]
  · have hfalse : (isLit l2 && isLit r2) = false := by
      cases h1 : isLit l2 <;> cases h2 : isLit r2 <;> simp_all
    refine ⟨.relationalExpr ap l2 r2, .bool (relationalEval S2N ap vl vr), ?_, rfl,
      ?_, ?_, ?_, hevO, hevS,
      ⟨fun h2 => by simp [Expr.returns] at h2, fun _ => ⟨_, rfl⟩⟩⟩
    · simp [simplify, hsl, hsr, hb]
    · simp only [WT]
      exact ⟨hwl2, hwr2⟩
    · simp [contextFree, hcl2, hcr2]
    · simp only [Folded]
      exact ⟨hfl2, hfr2, hb⟩


theorem goodLogical {l r l2 r2 : Expr} {vl vr : Value} {skip : Bool}
    (hrl : l.returns = .boolean) (hrr : r.returns = .boolean)
    (hsl : simplify FMT S2N l = some l2) (hgl : GoodFor FMT S2N l l2 vl)
    (hsr : simplify FMT S2N r = some r2) (hgr : GoodFor FMT S2N r r2 vr) :
    Good FMT S2N (.logicalExpr skip l r) := by
  obtain ⟨hrl2, hwl2, hcl2, hfl2, hel, hel2, hkl⟩ := hgl
  obtain ⟨hrr2, hwr2, hcr2, hfr2, her, her2, hkr⟩ := hgr
  obtain ⟨bl, rfl⟩ := hkl.2 hrl
  obtain ⟨br, rfl⟩ := hkr.2 hrr
  have hevO : ∀ octx, eval FMT S2N (.logicalExpr skip l r) octx
      = some (if bl == skip then Value.bool skip else .bool br) := by
    intro octx
    by_cases hc : bl = skip
    · simp [eval, hel octx, valEqBool, hc]
    · simp [eval, hel octx, her octx, valEqBool, hc]
  by_cases hL : isLit l2 = true
  · by_cases hc : bl = skip
    · refine ⟨.booleanVal skip, .bool skip, ?_, rfl, by simp [WT], by simp [contextFree],
        by simp [Folded], ?_, fun octx => by simp [eval],
        ⟨fun h2 => by simp [Expr.returns] at h2, fun _ => ⟨_, rfl⟩⟩⟩
      · simp [simplify, hsl, hsr, hL, hel2 none, valEqBool, hc]
      · intro octx
        rw [hevO octx]
        simp [hc]
    · refine ⟨r2, .bool br, ?_, hrr2.trans hrr, hwr2, hcr2, hfr2, ?_, her2,
        ⟨fun h2 => by simp [Expr.returns] at h2, fun _ => ⟨_, rfl⟩⟩⟩
      · simp [simplify, hsl, hsr, hL, hel2 none, valEqBool, hc]
      · intro octx
        rw [hevO octx]
        simp [hc]
  · by_cases hR : isLit r2 = true
    · by_cases hc2 : br = skip
      · refine ⟨.booleanVal skip, .bool skip, ?_, rfl, by simp [WT], by simp [contextFree],
          by simp [Folded], ?_, fun octx => by simp [eval],
          ⟨fun h2 => by simp [Expr.returns] at h2, fun _ => ⟨_, rfl⟩⟩⟩
        · simp [simplify, hsl, hsr, hL, hR, her2 none, valEqBool, hc2]
        · intro octx
          rw [hevO octx]
          by_cases hc : bl = skip <;> simp [hc, hc2]
      · refine ⟨l2, .bool bl, ?_, hrl2.trans hrl, hwl2, hcl2, hfl2, ?_, hel2,
          ⟨fun h2 => by simp [Expr.returns] at h2, fun _ => ⟨_, rfl⟩⟩⟩
        · simp [simplify, hsl, hsr, hL, hR, her2 none, valEqBool, hc2]
        · intro octx
          rw [hevO octx]
          cases bl <;> cases br <;> cases skip <;> simp_all
    · have hevS : ∀ octx, eval FMT S2N (.logicalExpr skip l2 r2) octx
          = some (if bl == skip then Value.bool skip else .bool br) := by
        intro octx
        by_cases hc : bl = skip
        · simp [eval, hel2 octx, valEqBool, hc]
        · simp [eval, hel2 octx, her2 octx, valEqBool, hc]
      have hx : ∃ b, (if bl == skip then Value.bool skip else .bool br) = .bool b := by
        by_cases hc : bl = skip <;> simp [hc]
      refine ⟨.logicalExpr skip l2 r2, _, ?_, rfl, ?_, ?_, ?_, hevO, hevS,
        ⟨fun h2 => by simp [Expr.returns] at h2, fun _ => hx⟩⟩
      · simp [simplify, hsl, hsr, hL, hR]
      · simp only [WT]
        exact ⟨hrl2.trans hrl, hrr2.trans hrr, hwl2, hwr2⟩
      · simp [contextFree, hcl2, hcr2]
      · simp only [Folded]
        exact ⟨hfl2, hfr2, by simpa using hL, by simpa using hR⟩

theorem goodFuncCall {args args2 : List Expr} {vals : List Value}
    (dt : DataType) (impl : List Value → Value)
    (hdt : dt = .string ∨ dt = .number ∨ dt = .boolean)
    (himpl : ∀ vs, kindOf (impl vs) = dt)
    (hsl : simplifyList FMT S2N args = some args2)
    (hwl : WTList args2) (hcl : contextFreeList args2 = true) (hfl : FoldedList args2)
    (hev : ∀ octx, evalList FMT S2N args octx = some vals)
    (hev2 : ∀ octx, evalList FMT S2N args2 octx = some vals) :
    Good FMT S2N (.funcCall dt impl args) := by
  have hevO : ∀ octx, eval FMT S2N (.funcCall dt impl args) octx = some (impl vals) := by
    intro octx
    simp [eval, hev octx]
  have hevS : ∀ octx, eval FMT S2N (.funcCall dt impl args2) octx = some (impl vals) := by
    intro octx
    simp [eval, hev2 octx]
  have hkind : kindOK (impl vals) dt := by
    constructor
    · intro h
      exact kindOf_number (by rw [himpl vals, h])
    · intro h
      exact kindOf_boolean (by rw [himpl vals, h])
  by_cases hb : args2.all isLit = true
  · have hb2 : ∀ x ∈ args2, isLit x = true := by simpa using hb
    rcases hdt with hdt | hdt | hdt
    · obtain ⟨s, hs⟩ := kindOf_string (by rw [himpl vals, hdt])
      refine ⟨.stringVal s, impl vals, ?_, hdt.symm, by simp [WT], by simp [contextFree],
        by simp [Folded], hevO, fun octx => by simp [eval, hs], hkind⟩
      simp [simplify, hsl, hevS none, hs, value2Expr]
      exact hb2
    · obtain ⟨x, hs⟩ := kindOf_number (by rw [himpl vals, hdt])
      refine ⟨.numberVal x, impl vals, ?_, hdt.symm, by simp [WT], by simp [contextFree],
        by simp [Folded], hevO, fun octx => by simp [eval, hs], hkind⟩
      simp [simplify, hsl, hevS none, hs, value2Expr]
      exact hb2
    · obtain ⟨b, hs⟩ := kindOf_boolean (by rw [himpl vals, hdt])
      refine ⟨.booleanVal b, impl vals, ?_, hdt.symm, by simp [WT], by simp [contextFree],
        by simp [Folded], hevO, fun octx => by simp [eval, hs], hkind⟩
      simp [simplify, hsl, hevS none, hs, value2Expr]
      exact hb2
  · refine ⟨.funcCall dt impl args2, impl vals, ?_, rfl, ?_, ?_, ?_, hevO, hevS, hkind⟩
    · simp [simplify, hsl, hb]
      intro h2
      exact absurd (List.all_eq_true.mpr h2) hb
    · simp only [WT]
      exact ⟨hdt, himpl, hwl⟩
    · simpa [contextFree] using hcl
    · simp only [Folded]
      exact ⟨hfl, by simpa using hb⟩

theorem goodNumberFunc {a a2 : Expr} {va : Value}
    (hsa : simplify FMT S2N a = some a2) (hga : GoodFor FMT S2N a a2 va) :
    Good FMT S2N (.numberFunc a) := by
  obtain ⟨hra2, hwa2, hca2, hfa2, hea, hea2, hka⟩ := hga
  have hevO : ∀ octx, eval FMT S2N (.numberFunc a) octx
      = some (.num (value2Number S2N va)) := by
    intro octx
    simp [eval, hea octx]
  have hevS : ∀ octx, eval FMT S2N (.numberFunc a2) octx
      = some (.num (value2Number S2N va)) := by
    intro octx
    simp [eval, hea2 octx]
  by_cases hb : isLit a2 = true
  · refine ⟨.numberVal (value2Number S2N va), .num (value2Number S2N va), ?_, rfl,
      by simp [WT], by simp [contextFree], by simp [Folded], hevO,
      fun octx => by simp [eval],
      ⟨fun _ => ⟨_, rfl⟩, fun h2 => by simp [Expr.returns] at h2⟩⟩
    simp [simplify, hsa, hb, hevS none, value2Expr]
  · refine ⟨.numberFunc a2, .num (value2Number S2N va), ?_, rfl, ?_, ?_, ?_, hevO, hevS,
      ⟨fun _ => ⟨_, rfl⟩, fun h2 => by simp [Expr.returns] at h2⟩⟩
    · simp [simplify, hsa, hb]
    · simpa [WT] using hwa2
    · simpa [contextFree] using hca2
    · simp only [Folded]
      exact ⟨hfa2, by simpa using hb⟩

theorem goodBooleanFunc {a a2 : Expr} {va : Value}
    (hsa : simplify FMT S2N a = some a2) (hga : GoodFor FMT S2N a a2 va) :
    Good FMT S2N (.booleanFunc a) := by
  obtain ⟨hra2, hwa2, hca2, hfa2, hea, hea2, hka⟩ := hga
  have hevO : ∀ octx, eval FMT S2N (.booleanFunc a) octx
      = some (.bool (value2Boolean va)) := by
    intro octx
    simp [eval, hea octx]
  have hevS : ∀ octx, eval FMT S2N (.booleanFunc a2) octx
      = some (.bool (value2Boolean va)) := by
    intro octx
    simp [eval, hea2 octx]
  by_cases hb : isLit a2 = true
  · refine ⟨.booleanVal (value2Boolean va), .bool (value2Boolean va), ?_, rfl,
      by simp [WT], by simp [contextFree], by simp [Folded], hevO,
      fun octx => by simp [eval],
      ⟨fun h2 => by simp [Expr.returns] at h2, fun _ => ⟨_, rfl⟩⟩⟩
    simp [simplify, hsa, hb, hevS none, value2Expr]
  · refine ⟨.booleanFunc a2, .bool (value2Boolean va), ?_, rfl, ?_, ?_, ?_, hevO, hevS,
      ⟨fun h2 => by simp [Expr.returns] at h2, fun _ => ⟨_, rfl⟩⟩⟩
    · simp [simplify, hsa, hb]
    · simpa [WT] using hwa2
    · simpa [contextFree] using hca2
    · simp only [Folded]
      exact ⟨hfa2, by simpa using hb⟩

theorem goodStringFunc {a a2 : Expr} {va : Value}
    (hsa : simplify FMT S2N a = some a2) (hga : GoodFor FMT S2N a a2 va) :
    Good FMT S2N (.stringFunc a) := by
  obtain ⟨hra2, hwa2, hca2, hfa2, hea, hea2, hka⟩ := hga
  have hevO : ∀ octx, eval FMT S2N (.stringFunc a) octx
      = some (.str (value2String FMT va)) := by
    intro octx
    simp [eval, hea octx]
  have hevS : ∀ octx, eval FMT S2N (.stringFunc a2) octx
      = some (.str (value2String FMT va)) := by
    intro octx
    simp [eval, hea2 octx]
  by_cases hb : isLit a2 = true
  · refine ⟨.stringVal (value2String FMT va), .str (value2String FMT va), ?_, rfl,
      by simp [WT], by simp [contextFree], by simp [Folded], hevO,
      fun octx => by simp [eval], ?_⟩
    · simp [simplify, hsa, hb, hevS none, value2Expr]
    · refine ⟨fun h2 => ?_, fun h2 => ?_⟩ <;> simp [Expr.returns] at h2
  · refine ⟨.stringFunc a2, .str (value2String FMT va), ?_, rfl, ?_, ?_, ?_, hevO, hevS, ?_⟩
    · simp [simplify, hsa, hb]
    · simpa [WT] using hwa2
    · simpa [contextFree] using hca2
    · simp only [Folded]
      exact ⟨hfa2, by simpa using hb⟩
    · refine ⟨fun h2 => ?_, fun h2 => ?_⟩ <;> simp [Expr.returns] at h2


set_option linter.unreachableTactic false in
set_option linter.unusedTactic false in
theorem goodAll : ∀ n : ℕ,
    (∀ e : Expr, sizeOf e ≤ n → WT e → contextFree e = true → Good FMT S2N e)
    ∧ (∀ args : List Expr, sizeOf args ≤ n → WTList args →
        contextFreeList args = true → GoodList FMT S2N args) := by
  intro n
  induction n using Nat.strong_induction_on with
  | _ n ih =>
    constructor
    · intro e hsz hwt hcf
      cases e with
      | stringVal s => exact goodLit FMT S2N (by simp [isLit])
      | numberVal x => exact goodLit FMT S2N (by simp [isLit])
      | booleanVal b => exact goodLit FMT S2N (by simp [isLit])
      | contextExpr => simp [contextFree] at hcf
      | varRef name dt => simp [contextFree] at hcf
      | position => simp [contextFree] at hcf
      | last => simp [contextFree] at hcf
      | negateExpr a =>
        simp only [WT] at hwt
        simp only [contextFree] at hcf
        have hla : sizeOf a < n := lt_of_lt_of_le (by first | (simp; omega) | simp) hsz
        obtain ⟨a2, va, hsa, hra2, hwa2, hca2, hfa2, hea, hea2, hka⟩ :=
          (ih (sizeOf a) hla).1 a le_rfl hwt.2 hcf
        exact goodNegate FMT S2N hwt.1 hwt.2 hcf hea hka
      | arithmeticExpr ap l r =>
        simp only [WT] at hwt
        obtain ⟨hrl, hrr, hwl, hwr⟩ := hwt
        simp only [contextFree, Bool.and_eq_true] at hcf
        obtain ⟨hcl, hcr⟩ := hcf
        have hll : sizeOf l < n := lt_of_lt_of_le (by first | (simp; omega) | simp) hsz
        have hlr : sizeOf r < n := lt_of_lt_of_le (by first | (simp; omega) | simp) hsz
        obtain ⟨l2, vl, hsl, hgl⟩ := (ih (sizeOf l) hll).1 l le_rfl hwl hcl
        obtain ⟨r2, vr, hsr, hgr⟩ := (ih (sizeOf r) hlr).1 r le_rfl hwr hcr
        exact goodArith FMT S2N ap hrl hrr hsl hgl hsr hgr
      | equalityExpr ap l r =>
        simp only [WT] at hwt
        obtain ⟨hwl, hwr⟩ := hwt
        simp only [contextFree, Bool.and_eq_true] at hcf
        obtain ⟨hcl, hcr⟩ := hcf
        have hll : sizeOf l < n := lt_of_lt_of_le (by first | (simp; omega) | simp) hsz
        have hlr : sizeOf r < n := lt_of_lt_of_le (by first | (simp; omega) | simp) hsz
        obtain ⟨l2, vl, hsl, hgl⟩ := (ih (sizeOf l) hll).1 l le_rfl hwl hcl
        obtain ⟨r2, vr, hsr, hgr⟩ := (ih (sizeOf r) hlr).1 r le_rfl hwr hcr
        exact goodEquality FMT S2N ap hsl hgl hsr hgr
      | relationalExpr ap l r =>
        simp only [WT] at hwt
        obtain ⟨hwl, hwr⟩ := hwt
        simp only [contextFree, Bool.and_eq_true] at hcf
        obtain ⟨hcl, hcr⟩ := hcf
        have hll : sizeOf l < n := lt_of_lt_of_le (by first | (simp; omega) | simp) hsz
        have hlr : sizeOf r < n := lt_of_lt_of_le (by first | (simp; omega) | simp) hsz
        obtain ⟨l2, vl, hsl, hgl⟩ := (ih (sizeOf l) hll).1 l le_rfl hwl hcl
        obtain ⟨r2, vr, hsr, hgr⟩ := (ih (sizeOf r) hlr).1 r le_rfl hwr hcr
        exact goodRelational FMT S2N ap hsl hgl hsr hgr
      | logicalExpr skip l r =>
        simp only [WT] at hwt
        obtain ⟨hrl, hrr, hwl, hwr⟩ := hwt
        simp only [contextFree, Bool.and_eq_true] at hcf
        obtain ⟨hcl, hcr⟩ := hcf
        have hll : sizeOf l < n := lt_of_lt_of_le (by first | (simp; omega) | simp) hsz
        have hlr : sizeOf r < n := lt_of_lt_of_le (by first | (simp; omega) | simp) hsz
        obtain ⟨l2, vl, hsl, hgl⟩ := (ih (sizeOf l) hll).1 l le_rfl hwl hcl
        obtain ⟨r2, vr, hsr, hgr⟩ := (ih (sizeOf r) hlr).1 r le_rfl hwr hcr
        exact goodLogical FMT S2N hrl hrr hsl hgl hsr hgr
      | funcCall dt impl args =>
        simp only [WT] at hwt
        obtain ⟨hdt, himpl, hwargs⟩ := hwt
        simp only [contextFree] at hcf
        have hla : sizeOf args < n := lt_of_lt_of_le (by first | (simp; omega) | simp) hsz
        obtain ⟨args2, vals, hsl, hwl2, hcl2, hfl2, hev, hev2⟩ :=
          (ih (sizeOf args) hla).2 args le_rfl hwargs hcf
        exact goodFuncCall FMT S2N dt impl hdt himpl hsl hwl2 hcl2 hfl2 hev hev2
      | numberFunc a =>
        simp only [WT] at hwt
        simp only [contextFree] at hcf
        have hla : sizeOf a < n := lt_of_lt_of_le (by first | (simp; omega) | simp) hsz
        obtain ⟨a2, va, hsa, hga⟩ := (ih (sizeOf a) hla).1 a le_rfl hwt hcf
        exact goodNumberFunc FMT S2N hsa hga
      | booleanFunc a =>
        simp only [WT] at hwt
        simp only [contextFree] at hcf
        have hla : sizeOf a < n := lt_of_lt_of_le (by first | (simp; omega) | simp) hsz
        obtain ⟨a2, va, hsa, hga⟩ := (ih (sizeOf a) hla).1 a le_rfl hwt hcf
        exact goodBooleanFunc FMT S2N hsa hga
      | stringFunc a =>
        simp only [WT] at hwt
        simp only [contextFree] at hcf
        have hla : sizeOf a < n := lt_of_lt_of_le (by first | (simp; omega) | simp) hsz
        obtain ⟨a2, va, hsa, hga⟩ := (ih (sizeOf a) hla).1 a le_rfl hwt hcf
        exact goodStringFunc FMT S2N hsa hga
    · intro args hsz hwt hcf
      cases args with
      | nil =>
        exact ⟨[], [], by simp [simplifyList], by simp [WTList], by simp [contextFreeList],
          by simp [FoldedList], fun octx => by simp [evalList], fun octx => by simp [evalList]⟩
      | cons a as =>
        simp only [WTList] at hwt
        obtain ⟨hwa, hwas⟩ := hwt
        simp only [contextFreeList, Bool.and_eq_true] at hcf
        obtain ⟨hca, hcas⟩ := hcf
        have h1 : sizeOf a < n := lt_of_lt_of_le (by first | (simp; omega) | simp) hsz
        have h2 : sizeOf as < n := lt_of_lt_of_le (by first | (simp; omega) | simp) hsz
        obtain ⟨a2, va, hsa, hra2, hwa2, hca2, hfa2, hea, hea2, hka⟩ :=
          (ih (sizeOf a) h1).1 a le_rfl hwa hca
        obtain ⟨as2, vs, hss, hwl2, hcl2, hfl2, hev, hev2⟩ :=
          (ih (sizeOf as) h2).2 as le_rfl hwas hcas
        refine ⟨a2 :: as2, va :: vs, ?_, ?_, ?_, ?_, ?_, ?_⟩
        · simp [simplifyList, hsa, hss]
        · simp only [WTList]
          exact ⟨hwa2, hwl2⟩
        · simp [contextFreeList, hca2, hcl2]
        · simp only [FoldedList]
          exact ⟨hfa2, hfl2⟩
        · intro octx
          simp [evalList, hea octx, hev octx]
        · intro octx
          simp [evalList, hea2 octx, hev2 octx]


/-- arithmeticOp[0] (part_007 line 339, `func(x, y) { return x + y }`):
Go float64 addition on the model (NaN propagates, opposite infinities give
NaN; finite addition is exact). -/
def arithAdd : XFloat → XFloat → XFloat
  | .nan, _ => .nan
  | _, .nan => .nan
  | .inf b1, .inf b2 => if b1 = b2 then .inf b1 else .nan
  | .inf b, .fin _ => .inf b
  | .fin _, .inf b => .inf b
  | .fin q1, .fin q2 => .fin (q1 + q2)

/-- A concrete formatter standing in for strconv formatting, used only to
instantiate the parametric theorems on concrete inputs. -/
def FMT0 : ℚ → String := fun _ => ""

/-- A concrete parser standing in for strconv.ParseFloat, used only to
instantiate the parametric theorems on concrete inputs. -/
def S2N0 : String → XFloat := fun _ => .nan

/-- C1 (amended): for every compiled expression of the fragment that is
well-typed in the sense the compiler guarantees (`WT`) and contains no
variable references, no location paths and no context-dependent
sub-expressions (`contextFree`), `Simplify` succeeds and returns an
expression that evaluated in a nil context with nil variables yields the
same value as the original evaluated in any context with any variable
bindings; and in the simplified expression every sub-expression whose
direct children are all literal is itself literal, except for `negateExpr`
nodes, which implement no `Simplify()` method and pass through unchanged
(see the accompanying counterexample to the claim's unamended second
sentence). -/
theorem simplify_equivalence_and_folding (e : Expr)
    (hwt : WT e) (hcf : contextFree e = true) :
    ∃ e2 v, simplify FMT S2N e = some e2
      ∧ (∀ octx : Option Ctx, eval FMT S2N e octx = some v)
      ∧ eval FMT S2N e2 none = some v
      ∧ Folded e2 := by
  obtain ⟨e2, v, hs, hr, hw, hc, hf, hevO, hevS, hk⟩ :=
    (goodAll FMT S2N (sizeOf e)).1 e le_rfl hwt hcf
  exact ⟨e2, v, hs, hevO, hevS none, hf⟩


/-- Closed instance of the C1 theorem: the compiled form of `1 + 2`
(both operands literal numbers) is well-typed and context-free, and the
simplifier folds it while preserving the value. -/
theorem simplify_equivalence_and_folding_witness :
    WT (Expr.arithmeticExpr arithAdd (.numberVal (.fin 1)) (.numberVal (.fin 2)))
    ∧ contextFree
        (Expr.arithmeticExpr arithAdd (.numberVal (.fin 1)) (.numberVal (.fin 2))) = true
    ∧ ∃ e2 v,
        simplify FMT0 S2N0
            (Expr.arithmeticExpr arithAdd (.numberVal (.fin 1)) (.numberVal (.fin 2)))
          = some e2
        ∧ (∀ octx : Option Ctx,
            eval FMT0 S2N0
                (Expr.arithmeticExpr arithAdd (.numberVal (.fin 1)) (.numberVal (.fin 2)))
              octx = some v)
        ∧ eval FMT0 S2N0 e2 none = some v
        ∧ Folded e2 :=
  ⟨by simp [WT, Expr.returns], by simp [contextFree],
    simplify_equivalence_and_folding FMT0 S2N0 _
      (by simp [WT, Expr.returns]) (by simp [contextFree])⟩

/-- C1 counterexample to the claim's folding sentence as stated: the
compiled form of the xpath `-3` is a `negateExpr` whose only direct child
is a literal number, yet `Simplify` returns it unchanged — `negateExpr`
implements no `Simplify()` method — so it is not replaced by a literal. -/
theorem negate_literal_child_not_folded :
    isLit (Expr.numberVal (.fin 3)) = true
    ∧ simplify FMT0 S2N0 (.negateExpr (.numberVal (.fin 3)))
        = some (.negateExpr (.numberVal (.fin 3)))
    ∧ isLit (Expr.negateExpr (.numberVal (.fin 3))) = false := by
  refine ⟨by simp [isLit], ?_, by simp [isLit]⟩
  simp [simplify]

end Simp

end XPathProof
